import Mathlib

/-!
# Verification of the curve25519-dalek core (Edwards form of Curve25519)

This file embeds, in Lean 4, the core of the `curve25519-dalek` library as
described by its specification and the two source files
`src/edwards.rs` and `src/backend/serial/fiat_rust/field.rs`, and proves or
refutes the frozen claims about it.

Field elements are modelled semantically as `ZMod p` with
`p = 2^255 - 19`: the `fiat_25519_*` limb routines used by
`FieldElement51` live in the external `curve25519_fiat` crate and are
correct-by-construction implementations of the field operations on the
represented values, so the arithmetic operations of `FieldElement51`
(`add`, `sub`, `mul`, `square`, `neg`, `pow2k`, `square2`) are embedded as
the corresponding operations of `ZMod p`.  Byte encodings are modelled as
lists of naturals (one per byte, little-endian), following
`FieldElement51::from_bytes` / `to_bytes`.

Parts of the repository that the claims depend on but whose source files
were not supplied (the `field.rs` wrapper with `sqrt_ratio_i`, `invert`,
`is_negative`; `curve_models.rs`; `window.rs`; `scalar.rs`;
`constants.rs`; `scalar_mul/variable_base.rs`) are modelled from the
specification; each such definition carries a doc comment saying so.
-/

set_option maxHeartbeats 1000000

namespace Curve

/-- The field prime `p = 2^255 - 19` (spec §3). -/
def p : ℕ := 2 ^ 255 - 19

/-- Field elements, modelled as the integers modulo `p` represented by the
five-limb `FieldElement51` values. -/
abbrev F : Type := ZMod p

theorem p_pos : 0 < p := by norm_num [p]

instance : NeZero p := ⟨by norm_num [p]⟩

/-- Fuel-driven square-and-multiply modular exponentiation on naturals.
`powMod m fuel a n = a ^ n % m` whenever `n < 2 ^ fuel` and `m > 1`.
Used to give kernel-computable meaning to the fixed exponentiation chains
of the field backend (`invert`, `pow_p58`). -/
def powMod (m : ℕ) : ℕ → ℕ → ℕ → ℕ
  | 0, _, _ => 1 % m
  | fuel + 1, a, n =>
    if n = 0 then 1 % m
    else
      let r := powMod m fuel (a * a % m) (n / 2)
      if n % 2 = 1 then a * r % m else r

theorem powMod_cast (m : ℕ) :
    ∀ (fuel a n : ℕ), n < 2 ^ fuel →
      ((powMod m fuel a n : ℕ) : ZMod m) = (a : ZMod m) ^ n := by
  intro fuel
  induction fuel with
  | zero =>
    intro a n hn
    have hn0 : n = 0 := Nat.lt_one_iff.mp hn
    subst hn0
    simp [powMod, ZMod.natCast_mod]
  | succ f ih =>
    intro a n hn
    by_cases h0 : n = 0
    · subst h0; simp [powMod, ZMod.natCast_mod]
    · have hdiv : n / 2 < 2 ^ f := by
        have h2 : n < 2 ^ f * 2 := by
          have := hn
          rwa [pow_succ] at this
        exact Nat.div_lt_of_lt_mul (by omega)
      have hr := ih (a * a % m) (n / 2) hdiv
      have hsq : ((a * a % m : ℕ) : ZMod m) = (a : ZMod m) * (a : ZMod m) := by
        rw [ZMod.natCast_mod, Nat.cast_mul]
      rw [hsq] at hr
      have hrepr : 2 * (n / 2) + n % 2 = n := Nat.div_add_mod n 2
      rcases Nat.mod_two_eq_zero_or_one n with he | ho
      · have : powMod m (f + 1) a n = powMod m f (a * a % m) (n / 2) := by
          simp [powMod, h0, he]
        rw [this, hr, ← pow_two, ← pow_mul]
        congr 1
        omega
      · have : powMod m (f + 1) a n = a * powMod m f (a * a % m) (n / 2) % m := by
          simp [powMod, h0, ho]
        rw [this, ZMod.natCast_mod, Nat.cast_mul, hr, ← pow_two, ← pow_mul]
        rw [← pow_succ']
        congr 1
        omega

set_option maxRecDepth 10000

/-! ### Primality of the chain primes (Pratt/Lucas certificates) -/

theorem prime_2 : Nat.Prime 2 := by norm_num

theorem prime_3 : Nat.Prime 3 := by norm_num

theorem prime_5 : Nat.Prime 5 := by norm_num

theorem prime_7 : Nat.Prime 7 := by norm_num

theorem prime_13 : Nat.Prime 13 := by norm_num

theorem prime_19 : Nat.Prime 19 := by norm_num

theorem prime_31 : Nat.Prime 31 := by norm_num

theorem prime_47 : Nat.Prime 47 := by norm_num

theorem prime_107 : Nat.Prime 107 := by norm_num

theorem prime_127 : Nat.Prime 127 := by norm_num

theorem prime_223 : Nat.Prime 223 := by norm_num

theorem prime_353 : Nat.Prime 353 := by norm_num

theorem prime_2437 : Nat.Prime 2437 := by norm_num

theorem prime_4153 : Nat.Prime 4153 := by norm_num

theorem prime_57467 : Nat.Prime 57467 := by norm_num

theorem prime_65147 : Nat.Prime 65147 := by norm_num

theorem prime_75707 : Nat.Prime 75707 := by norm_num

theorem prime_132049 : Nat.Prime 132049 := by norm_num

theorem prime_430751 : Nat.Prime 430751 := by norm_num

theorem prime_569003 : Nat.Prime 569003 := by norm_num

theorem prime_1923133 : Nat.Prime 1923133 := by norm_num

theorem prime_8574133 : Nat.Prime 8574133 := by norm_num

theorem prime_2773320623 : Nat.Prime 2773320623 := by
  apply lucas_primality 2773320623 ((5 : ℕ) : ZMod 2773320623)
  · rw [← Curve.powMod_cast 2773320623 32 5 (2773320623 - 1) (by norm_num)]
    decide
  · intro q hq hdvd
    have hfac : 2773320623 - 1 = 2 * (2437 * 569003) := by norm_num
    rw [hfac] at hdvd
    rcases (Nat.Prime.dvd_mul hq).mp hdvd with hcase | hdvd
    · have hqe := (Nat.prime_dvd_prime_iff_eq hq prime_2).mp hcase
      subst hqe
      rw [← Curve.powMod_cast 2773320623 32 5 ((2773320623 - 1) / 2) (by norm_num)]
      decide
    rcases (Nat.Prime.dvd_mul hq).mp hdvd with hcase | hdvd
    · have hqe := (Nat.prime_dvd_prime_iff_eq hq prime_2437).mp hcase
      subst hqe
      rw [← Curve.powMod_cast 2773320623 32 5 ((2773320623 - 1) / 2437) (by norm_num)]
      decide
    have hcase := hdvd
    · have hqe := (Nat.prime_dvd_prime_iff_eq hq prime_569003).mp hcase
      subst hqe
      rw [← Curve.powMod_cast 2773320623 32 5 ((2773320623 - 1) / 569003) (by norm_num)]
      decide

theorem prime_chain_721063_11 : Nat.Prime 72106336199 := by
  apply lucas_primality 72106336199 ((7 : ℕ) : ZMod 72106336199)
  · rw [← Curve.powMod_cast 72106336199 64 7 (72106336199 - 1) (by norm_num)]
    decide
  · intro q hq hdvd
    have hfac : 72106336199 - 1 = 2 * (13 * 2773320623) := by norm_num
    rw [hfac] at hdvd
    rcases (Nat.Prime.dvd_mul hq).mp hdvd with hcase | hdvd
    · have hqe := (Nat.prime_dvd_prime_iff_eq hq prime_2).mp hcase
      subst hqe
      rw [← Curve.powMod_cast 72106336199 64 7 ((72106336199 - 1) / 2) (by norm_num)]
      decide
    rcases (Nat.Prime.dvd_mul hq).mp hdvd with hcase | hdvd
    · have hqe := (Nat.prime_dvd_prime_iff_eq hq prime_13).mp hcase
      subst hqe
      rw [← Curve.powMod_cast 72106336199 64 7 ((72106336199 - 1) / 13) (by norm_num)]
      decide
    have hcase := hdvd
    · have hqe := (Nat.prime_dvd_prime_iff_eq hq prime_2773320623).mp hcase
      subst hqe
      rw [← Curve.powMod_cast 72106336199 64 7 ((72106336199 - 1) / 2773320623) (by norm_num)]
      decide

theorem prime_chain_191951_16 : Nat.Prime 1919519569386763 := by
  apply lucas_primality 1919519569386763 ((2 : ℕ) : ZMod 1919519569386763)
  · rw [← Curve.powMod_cast 1919519569386763 64 2 (1919519569386763 - 1) (by norm_num)]
    decide
  · intro q hq hdvd
    have hfac : 1919519569386763 - 1 = 2 * (3 * (7 * (19 * (47 * (47 * (127 * 8574133)))))) := by norm_num
    rw [hfac] at hdvd
    rcases (Nat.Prime.dvd_mul hq).mp hdvd with hcase | hdvd
    · have hqe := (Nat.prime_dvd_prime_iff_eq hq prime_2).mp hcase
      subst hqe
      rw [← Curve.powMod_cast 1919519569386763 64 2 ((1919519569386763 - 1) / 2) (by norm_num)]
      decide
    rcases (Nat.Prime.dvd_mul hq).mp hdvd with hcase | hdvd
    · have hqe := (Nat.prime_dvd_prime_iff_eq hq prime_3).mp hcase
      subst hqe
      rw [← Curve.powMod_cast 1919519569386763 64 2 ((1919519569386763 - 1) / 3) (by norm_num)]
      decide
    rcases (Nat.Prime.dvd_mul hq).mp hdvd with hcase | hdvd
    · have hqe := (Nat.prime_dvd_prime_iff_eq hq prime_7).mp hcase
      subst hqe
      rw [← Curve.powMod_cast 1919519569386763 64 2 ((1919519569386763 - 1) / 7) (by norm_num)]
      decide
    rcases (Nat.Prime.dvd_mul hq).mp hdvd with hcase | hdvd
    · have hqe := (Nat.prime_dvd_prime_iff_eq hq prime_19).mp hcase
      subst hqe
      rw [← Curve.powMod_cast 1919519569386763 64 2 ((1919519569386763 - 1) / 19) (by norm_num)]
      decide
    rcases (Nat.Prime.dvd_mul hq).mp hdvd with hcase | hdvd
    · have hqe := (Nat.prime_dvd_prime_iff_eq hq prime_47).mp hcase
      subst hqe
      rw [← Curve.powMod_cast 1919519569386763 64 2 ((1919519569386763 - 1) / 47) (by norm_num)]
      decide
    rcases (Nat.Prime.dvd_mul hq).mp hdvd with hcase | hdvd
    · have hqe := (Nat.prime_dvd_prime_iff_eq hq prime_47).mp hcase
      subst hqe
      rw [← Curve.powMod_cast 1919519569386763 64 2 ((1919519569386763 - 1) / 47) (by norm_num)]
      decide
    rcases (Nat.Prime.dvd_mul hq).mp hdvd with hcase | hdvd
    · have hqe := (Nat.prime_dvd_prime_iff_eq hq prime_127).mp hcase
      subst hqe
      rw [← Curve.powMod_cast 1919519569386763 64 2 ((1919519569386763 - 1) / 127) (by norm_num)]
      decide
    have hcase := hdvd
    · have hqe := (Nat.prime_dvd_prime_iff_eq hq prime_8574133).mp hcase
      subst hqe
      rw [← Curve.powMod_cast 1919519569386763 64 2 ((1919519569386763 - 1) / 8574133) (by norm_num)]
      decide

theorem prime_chain_317577_17 : Nat.Prime 31757755568855353 := by
  apply lucas_primality 31757755568855353 ((10 : ℕ) : ZMod 31757755568855353)
  · rw [← Curve.powMod_cast 31757755568855353 64 10 (31757755568855353 - 1) (by norm_num)]
    decide
  · intro q hq hdvd
    have hfac : 31757755568855353 - 1 = 2 * (2 * (2 * (3 * (31 * (107 * (223 * (4153 * 430751))))))) := by norm_num
    rw [hfac] at hdvd
    rcases (Nat.Prime.dvd_mul hq).mp hdvd with hcase | hdvd
    · have hqe := (Nat.prime_dvd_prime_iff_eq hq prime_2).mp hcase
      subst hqe
      rw [← Curve.powMod_cast 31757755568855353 64 10 ((31757755568855353 - 1) / 2) (by norm_num)]
      decide
    rcases (Nat.Prime.dvd_mul hq).mp hdvd with hcase | hdvd
    · have hqe := (Nat.prime_dvd_prime_iff_eq hq prime_2).mp hcase
      subst hqe
      rw [← Curve.powMod_cast 31757755568855353 64 10 ((31757755568855353 - 1) / 2) (by norm_num)]
      decide
    rcases (Nat.Prime.dvd_mul hq).mp hdvd with hcase | hdvd
    · have hqe := (Nat.prime_dvd_prime_iff_eq hq prime_2).mp hcase
      subst hqe
      rw [← Curve.powMod_cast 31757755568855353 64 10 ((31757755568855353 - 1) / 2) (by norm_num)]
      decide
    rcases (Nat.Prime.dvd_mul hq).mp hdvd with hcase | hdvd
    · have hqe := (Nat.prime_dvd_prime_iff_eq hq prime_3).mp hcase
      subst hqe
      rw [← Curve.powMod_cast 31757755568855353 64 10 ((31757755568855353 - 1) / 3) (by norm_num)]
      decide
    rcases (Nat.Prime.dvd_mul hq).mp hdvd with hcase | hdvd
    · have hqe := (Nat.prime_dvd_prime_iff_eq hq prime_31).mp hcase
      subst hqe
      rw [← Curve.powMod_cast 31757755568855353 64 10 ((31757755568855353 - 1) / 31) (by norm_num)]
      decide
    rcases (Nat.Prime.dvd_mul hq).mp hdvd with hcase | hdvd
    · have hqe := (Nat.prime_dvd_prime_iff_eq hq prime_107).mp hcase
      subst hqe
      rw [← Curve.powMod_cast 31757755568855353 64 10 ((31757755568855353 - 1) / 107) (by norm_num)]
      decide
    rcases (Nat.Prime.dvd_mul hq).mp hdvd with hcase | hdvd
    · have hqe := (Nat.prime_dvd_prime_iff_eq hq prime_223).mp hcase
      subst hqe
      rw [← Curve.powMod_cast 31757755568855353 64 10 ((31757755568855353 - 1) / 223) (by norm_num)]
      decide
    rcases (Nat.Prime.dvd_mul hq).mp hdvd with hcase | hdvd
    · have hqe := (Nat.prime_dvd_prime_iff_eq hq prime_4153).mp hcase
      subst hqe
      rw [← Curve.powMod_cast 31757755568855353 64 10 ((31757755568855353 - 1) / 4153) (by norm_num)]
      decide
    have hcase := hdvd
    · have hqe := (Nat.prime_dvd_prime_iff_eq hq prime_430751).mp hcase
      subst hqe
      rw [← Curve.powMod_cast 31757755568855353 64 10 ((31757755568855353 - 1) / 430751) (by norm_num)]
      decide

theorem prime_chain_754457_35 : Nat.Prime 75445702479781427272750846543864801 := by
  apply lucas_primality 75445702479781427272750846543864801 ((7 : ℕ) : ZMod 75445702479781427272750846543864801)
  · rw [← Curve.powMod_cast 75445702479781427272750846543864801 128 7 (75445702479781427272750846543864801 - 1) (by norm_num)]
    decide
  · intro q hq hdvd
    have hfac : 75445702479781427272750846543864801 - 1 = 2 * (2 * (2 * (2 * (2 * (3 * (3 * (5 * (5 * (75707 * (72106336199 * 1919519569386763)))))))))) := by norm_num
    rw [hfac] at hdvd
    rcases (Nat.Prime.dvd_mul hq).mp hdvd with hcase | hdvd
    · have hqe := (Nat.prime_dvd_prime_iff_eq hq prime_2).mp hcase
      subst hqe
      rw [← Curve.powMod_cast 75445702479781427272750846543864801 128 7 ((75445702479781427272750846543864801 - 1) / 2) (by norm_num)]
      decide
    rcases (Nat.Prime.dvd_mul hq).mp hdvd with hcase | hdvd
    · have hqe := (Nat.prime_dvd_prime_iff_eq hq prime_2).mp hcase
      subst hqe
      rw [← Curve.powMod_cast 75445702479781427272750846543864801 128 7 ((75445702479781427272750846543864801 - 1) / 2) (by norm_num)]
      decide
    rcases (Nat.Prime.dvd_mul hq).mp hdvd with hcase | hdvd
    · have hqe := (Nat.prime_dvd_prime_iff_eq hq prime_2).mp hcase
      subst hqe
      rw [← Curve.powMod_cast 75445702479781427272750846543864801 128 7 ((75445702479781427272750846543864801 - 1) / 2) (by norm_num)]
      decide
    rcases (Nat.Prime.dvd_mul hq).mp hdvd with hcase | hdvd
    · have hqe := (Nat.prime_dvd_prime_iff_eq hq prime_2).mp hcase
      subst hqe
      rw [← Curve.powMod_cast 75445702479781427272750846543864801 128 7 ((75445702479781427272750846543864801 - 1) / 2) (by norm_num)]
      decide
    rcases (Nat.Prime.dvd_mul hq).mp hdvd with hcase | hdvd
    · have hqe := (Nat.prime_dvd_prime_iff_eq hq prime_2).mp hcase
      subst hqe
      rw [← Curve.powMod_cast 75445702479781427272750846543864801 128 7 ((75445702479781427272750846543864801 - 1) / 2) (by norm_num)]
      decide
    rcases (Nat.Prime.dvd_mul hq).mp hdvd with hcase | hdvd
    · have hqe := (Nat.prime_dvd_prime_iff_eq hq prime_3).mp hcase
      subst hqe
      rw [← Curve.powMod_cast 75445702479781427272750846543864801 128 7 ((75445702479781427272750846543864801 - 1) / 3) (by norm_num)]
      decide
    rcases (Nat.Prime.dvd_mul hq).mp hdvd with hcase | hdvd
    · have hqe := (Nat.prime_dvd_prime_iff_eq hq prime_3).mp hcase
      subst hqe
      rw [← Curve.powMod_cast 75445702479781427272750846543864801 128 7 ((75445702479781427272750846543864801 - 1) / 3) (by norm_num)]
      decide
    rcases (Nat.Prime.dvd_mul hq).mp hdvd with hcase | hdvd
    · have hqe := (Nat.prime_dvd_prime_iff_eq hq prime_5).mp hcase
      subst hqe
      rw [← Curve.powMod_cast 75445702479781427272750846543864801 128 7 ((75445702479781427272750846543864801 - 1) / 5) (by norm_num)]
      decide
    rcases (Nat.Prime.dvd_mul hq).mp hdvd with hcase | hdvd
    · have hqe := (Nat.prime_dvd_prime_iff_eq hq prime_5).mp hcase
      subst hqe
      rw [← Curve.powMod_cast 75445702479781427272750846543864801 128 7 ((75445702479781427272750846543864801 - 1) / 5) (by norm_num)]
      decide
    rcases (Nat.Prime.dvd_mul hq).mp hdvd with hcase | hdvd
    · have hqe := (Nat.prime_dvd_prime_iff_eq hq prime_75707).mp hcase
      subst hqe
      rw [← Curve.powMod_cast 75445702479781427272750846543864801 128 7 ((75445702479781427272750846543864801 - 1) / 75707) (by norm_num)]
      decide
    rcases (Nat.Prime.dvd_mul hq).mp hdvd with hcase | hdvd
    · have hqe := (Nat.prime_dvd_prime_iff_eq hq prime_chain_721063_11).mp hcase
      subst hqe
      rw [← Curve.powMod_cast 75445702479781427272750846543864801 128 7 ((75445702479781427272750846543864801 - 1) / 72106336199) (by norm_num)]
      decide
    have hcase := hdvd
    · have hqe := (Nat.prime_dvd_prime_iff_eq hq prime_chain_191951_16).mp hcase
      subst hqe
      rw [← Curve.powMod_cast 75445702479781427272750846543864801 128 7 ((75445702479781427272750846543864801 - 1) / 1919519569386763) (by norm_num)]
      decide

theorem prime_chain_740582_71 : Nat.Prime 74058212732561358302231226437062788676166966415465897661863160754340907 := by
  apply lucas_primality 74058212732561358302231226437062788676166966415465897661863160754340907 ((2 : ℕ) : ZMod 74058212732561358302231226437062788676166966415465897661863160754340907)
  · rw [← Curve.powMod_cast 74058212732561358302231226437062788676166966415465897661863160754340907 256 2 (74058212732561358302231226437062788676166966415465897661863160754340907 - 1) (by norm_num)]
    decide
  · intro q hq hdvd
    have hfac : 74058212732561358302231226437062788676166966415465897661863160754340907 - 1 = 2 * (3 * (353 * (57467 * (132049 * (1923133 * (31757755568855353 * 75445702479781427272750846543864801)))))) := by norm_num
    rw [hfac] at hdvd
    rcases (Nat.Prime.dvd_mul hq).mp hdvd with hcase | hdvd
    · have hqe := (Nat.prime_dvd_prime_iff_eq hq prime_2).mp hcase
      subst hqe
      rw [← Curve.powMod_cast 74058212732561358302231226437062788676166966415465897661863160754340907 256 2 ((74058212732561358302231226437062788676166966415465897661863160754340907 - 1) / 2) (by norm_num)]
      decide
    rcases (Nat.Prime.dvd_mul hq).mp hdvd with hcase | hdvd
    · have hqe := (Nat.prime_dvd_prime_iff_eq hq prime_3).mp hcase
      subst hqe
      rw [← Curve.powMod_cast 74058212732561358302231226437062788676166966415465897661863160754340907 256 2 ((74058212732561358302231226437062788676166966415465897661863160754340907 - 1) / 3) (by norm_num)]
      decide
    rcases (Nat.Prime.dvd_mul hq).mp hdvd with hcase | hdvd
    · have hqe := (Nat.prime_dvd_prime_iff_eq hq prime_353).mp hcase
      subst hqe
      rw [← Curve.powMod_cast 74058212732561358302231226437062788676166966415465897661863160754340907 256 2 ((74058212732561358302231226437062788676166966415465897661863160754340907 - 1) / 353) (by norm_num)]
      decide
    rcases (Nat.Prime.dvd_mul hq).mp hdvd with hcase | hdvd
    · have hqe := (Nat.prime_dvd_prime_iff_eq hq prime_57467).mp hcase
      subst hqe
      rw [← Curve.powMod_cast 74058212732561358302231226437062788676166966415465897661863160754340907 256 2 ((74058212732561358302231226437062788676166966415465897661863160754340907 - 1) / 57467) (by norm_num)]
      decide
    rcases (Nat.Prime.dvd_mul hq).mp hdvd with hcase | hdvd
    · have hqe := (Nat.prime_dvd_prime_iff_eq hq prime_132049).mp hcase
      subst hqe
      rw [← Curve.powMod_cast 74058212732561358302231226437062788676166966415465897661863160754340907 256 2 ((74058212732561358302231226437062788676166966415465897661863160754340907 - 1) / 132049) (by norm_num)]
      decide
    rcases (Nat.Prime.dvd_mul hq).mp hdvd with hcase | hdvd
    · have hqe := (Nat.prime_dvd_prime_iff_eq hq prime_1923133).mp hcase
      subst hqe
      rw [← Curve.powMod_cast 74058212732561358302231226437062788676166966415465897661863160754340907 256 2 ((74058212732561358302231226437062788676166966415465897661863160754340907 - 1) / 1923133) (by norm_num)]
      decide
    rcases (Nat.Prime.dvd_mul hq).mp hdvd with hcase | hdvd
    · have hqe := (Nat.prime_dvd_prime_iff_eq hq prime_chain_317577_17).mp hcase
      subst hqe
      rw [← Curve.powMod_cast 74058212732561358302231226437062788676166966415465897661863160754340907 256 2 ((74058212732561358302231226437062788676166966415465897661863160754340907 - 1) / 31757755568855353) (by norm_num)]
      decide
    have hcase := hdvd
    · have hqe := (Nat.prime_dvd_prime_iff_eq hq prime_chain_754457_35).mp hcase
      subst hqe
      rw [← Curve.powMod_cast 74058212732561358302231226437062788676166966415465897661863160754340907 256 2 ((74058212732561358302231226437062788676166966415465897661863160754340907 - 1) / 75445702479781427272750846543864801) (by norm_num)]
      decide

theorem prime_chain_578960_77 : Nat.Prime 57896044618658097711785492504343953926634992332820282019728792003956564819949 := by
  apply lucas_primality 57896044618658097711785492504343953926634992332820282019728792003956564819949 ((2 : ℕ) : ZMod 57896044618658097711785492504343953926634992332820282019728792003956564819949)
  · rw [← Curve.powMod_cast 57896044618658097711785492504343953926634992332820282019728792003956564819949 256 2 (57896044618658097711785492504343953926634992332820282019728792003956564819949 - 1) (by norm_num)]
    decide
  · intro q hq hdvd
    have hfac : 57896044618658097711785492504343953926634992332820282019728792003956564819949 - 1 = 2 * (2 * (3 * (65147 * 74058212732561358302231226437062788676166966415465897661863160754340907))) := by norm_num
    rw [hfac] at hdvd
    rcases (Nat.Prime.dvd_mul hq).mp hdvd with hcase | hdvd
    · have hqe := (Nat.prime_dvd_prime_iff_eq hq prime_2).mp hcase
      subst hqe
      rw [← Curve.powMod_cast 57896044618658097711785492504343953926634992332820282019728792003956564819949 256 2 ((57896044618658097711785492504343953926634992332820282019728792003956564819949 - 1) / 2) (by norm_num)]
      decide
    rcases (Nat.Prime.dvd_mul hq).mp hdvd with hcase | hdvd
    · have hqe := (Nat.prime_dvd_prime_iff_eq hq prime_2).mp hcase
      subst hqe
      rw [← Curve.powMod_cast 57896044618658097711785492504343953926634992332820282019728792003956564819949 256 2 ((57896044618658097711785492504343953926634992332820282019728792003956564819949 - 1) / 2) (by norm_num)]
      decide
    rcases (Nat.Prime.dvd_mul hq).mp hdvd with hcase | hdvd
    · have hqe := (Nat.prime_dvd_prime_iff_eq hq prime_3).mp hcase
      subst hqe
      rw [← Curve.powMod_cast 57896044618658097711785492504343953926634992332820282019728792003956564819949 256 2 ((57896044618658097711785492504343953926634992332820282019728792003956564819949 - 1) / 3) (by norm_num)]
      decide
    rcases (Nat.Prime.dvd_mul hq).mp hdvd with hcase | hdvd
    · have hqe := (Nat.prime_dvd_prime_iff_eq hq prime_65147).mp hcase
      subst hqe
      rw [← Curve.powMod_cast 57896044618658097711785492504343953926634992332820282019728792003956564819949 256 2 ((57896044618658097711785492504343953926634992332820282019728792003956564819949 - 1) / 65147) (by norm_num)]
      decide
    have hcase := hdvd
    · have hqe := (Nat.prime_dvd_prime_iff_eq hq prime_chain_740582_71).mp hcase
      subst hqe
      rw [← Curve.powMod_cast 57896044618658097711785492504343953926634992332820282019728792003956564819949 256 2 ((57896044618658097711785492504343953926634992332820282019728792003956564819949 - 1) / 74058212732561358302231226437062788676166966415465897661863160754340907) (by norm_num)]
      decide

theorem p_prime : Nat.Prime Curve.p := by
  have h : Curve.p = 57896044618658097711785492504343953926634992332820282019728792003956564819949 := by norm_num [Curve.p]
  rw [h]
  exact prime_chain_578960_77


instance : Fact (Nat.Prime p) := ⟨p_prime⟩

attribute [irreducible] powMod

/-! ### Field constants

`constants.rs` is not among the supplied sources; the required constants are
fixed by the spec (§6): `d = -121665/121666 mod p`, `2d`, and the square root
of `-1`.  The numerals below are anchored by the theorems that follow. -/

/-- Modelled from the spec: `EDWARDS_D` of the missing `constants.rs`,
the curve constant `d = -121665/121666 mod p`. -/
def EDWARDS_D : F :=
  ((37095705934669439343138083508754565189542113879843219016388785533085940283555 : ℕ) : F)

/-- Modelled from the spec: `EDWARDS_D2 = 2*d` of the missing `constants.rs`. -/
def EDWARDS_D2 : F :=
  ((16295367250680780974490674513165176452449235426866156013048779062215315747161 : ℕ) : F)

/-- Modelled from the spec: `SQRT_M1` of the missing `constants.rs`,
the square root of `-1` in the field. -/
def SQRT_M1 : F :=
  ((19681161376707505956807079304988542015446066515923890162744021073123829784752 : ℕ) : F)

theorem EDWARDS_D_spec : EDWARDS_D * 121666 = -121665 := by decide

theorem EDWARDS_D2_spec : EDWARDS_D2 = 2 * EDWARDS_D := by decide

theorem SQRT_M1_spec : SQRT_M1 * SQRT_M1 = -1 := by decide

/-- Exponentiation in the field, computed by square-and-multiply on the
canonical representative. -/
def fpow (a : F) (n : ℕ) : F := ((powMod p 256 a.val n : ℕ) : F)

theorem fpow_eq (a : F) (n : ℕ) (hn : n < 2 ^ 256) : fpow a n = a ^ n := by
  rw [fpow, powMod_cast p 256 a.val n hn, ZMod.natCast_zmod_val]

/-! ### Byte encodings (spec §4.1, §6; `FieldElement51::from_bytes`/`to_bytes`) -/

/-- `natToBytes k n` is the `k`-byte little-endian byte decomposition of `n`. -/
def natToBytes : ℕ → ℕ → List ℕ
  | 0, _ => []
  | k + 1, n => n % 256 :: natToBytes k (n / 256)

/-- The natural number represented by a little-endian byte list. -/
def bytesToNat : List ℕ → ℕ
  | [] => 0
  | b :: rest => b + 256 * bytesToNat rest

/-- `temp[31] &= 127`: mask the top bit of the last byte
(`FieldElement51::from_bytes`, field.rs line 190). -/
def maskHigh : List ℕ → List ℕ
  | [] => []
  | [b] => [b % 128]
  | b :: rest => b :: maskHigh rest

/-- `FieldElement51::to_bytes` (field.rs lines 198-202): serialize the fully
reduced representative to 32 bytes little-endian.  The underlying
`fiat_25519_to_bytes` of the external fiat crate packs the canonical
representative in `[0, p)`. -/
def toBytes (a : F) : List ℕ := natToBytes 32 a.val

/-- `FieldElement51::from_bytes` (field.rs lines 187-194): mask bit 255, then
unpack little-endian; the represented field element is the masked value mod
`p` (the function does not reject non-canonical encodings). -/
def fromBytes (s : List ℕ) : F := ((bytesToNat (maskHigh s) : ℕ) : F)

/-- Modelled from the spec: `FieldElement::is_negative` of the missing
`field.rs` wrapper: the low bit of the canonical encoding (`to_bytes()[0] & 1`). -/
def isNeg (a : F) : Bool := ((toBytes a).getD 0 0) % 2 == 1

/-- Modelled from the spec: `FieldElement::invert` of the missing `field.rs`
wrapper: `a^(p-2)` by a fixed squaring-and-multiplication chain (so that
`invert 0 = 0`); embedded by its value `a^(p-2)`, computed by
square-and-multiply. -/
def invert (a : F) : F := fpow a (p - 2)

/-- The candidate root `r = u·v³·(u·v⁷)^((p−5)/8)` computed by
`sqrt_ratio_i` (spec §4.1). -/
def sqrtR0 (u v : F) : F :=
  u * (v ^ 2 * v) * fpow (u * ((v ^ 2 * v) ^ 2 * v)) ((p - 5) / 8)

/-- The final conditional negation of `sqrt_ratio_i`: normalize to the
non-negative representative (low bit `0`). -/
def sqrtNormalize (r : F) : F := if isNeg r then -r else r

/-- Modelled from the spec: `FieldElement::sqrt_ratio_i` of the missing
`field.rs` wrapper (spec §4.1): compute `r = u·v³·(u·v⁷)^((p−5)/8)`, compare
`check = v·r²` against `u`, `−u` and `−u·i`, multiply `r` by `i` when the
check hit `−u` or `−u·i`, normalize `r` to the non-negative representative,
and report `1` iff the check hit `u` or `−u` (i.e. `u/v` is a square). -/
def sqrtRatioI (u v : F) : Bool × F :=
  let r0 := sqrtR0 u v
  let check := v * r0 ^ 2
  let correctSign : Bool := decide (check = u)
  let flippedSign : Bool := decide (check = -u)
  let flippedSignI : Bool := decide (check = -u * SQRT_M1)
  (correctSign || flippedSign,
   sqrtNormalize (if flippedSign || flippedSignI then SQRT_M1 * r0 else r0))

/-! ### Basic facts about the encodings -/

theorem p_lt : p < 2 ^ 255 := by norm_num [p]

theorem bytesToNat_natToBytes : ∀ (k n : ℕ), n < 256 ^ k →
    bytesToNat (natToBytes k n) = n := by
  intro k
  induction k with
  | zero => intro n hn; interval_cases n; rfl
  | succ m ih =>
    intro n hn
    have hdiv : n / 256 < 256 ^ m := by
      have : n < 256 ^ m * 256 := by
        rw [← pow_succ]; exact hn
      exact Nat.div_lt_of_lt_mul (by omega)
    simp only [natToBytes, bytesToNat, ih (n / 256) hdiv]
    omega

theorem natToBytes_lt : ∀ (k n : ℕ), ∀ b ∈ natToBytes k n, b < 256 := by
  intro k
  induction k with
  | zero => intro n b hb; simp [natToBytes] at hb
  | succ m ih =>
    intro n b hb
    simp only [natToBytes, List.mem_cons] at hb
    rcases hb with h | h
    · omega
    · exact ih _ b h

theorem natToBytes_length : ∀ (k n : ℕ), (natToBytes k n).length = k := by
  intro k
  induction k with
  | zero => intro n; rfl
  | succ m ih => intro n; simp [natToBytes, ih]

theorem toBytes_length (a : F) : (toBytes a).length = 32 :=
  natToBytes_length 32 a.val

theorem getD_natToBytes (k n : ℕ) (hk : 0 < k) :
    (natToBytes k n).getD 0 0 = n % 256 := by
  cases k with
  | zero => omega
  | succ m => rfl

theorem isNeg_iff (a : F) : isNeg a = true ↔ a.val % 2 = 1 := by
  rw [isNeg, toBytes, getD_natToBytes 32 a.val (by norm_num)]
  constructor
  · intro h
    have := of_decide_eq_true h
    omega
  · intro h
    apply decide_eq_true
    omega


/-! ### Point representations (edwards.rs; curve_models modelled from spec §4.2) -/

/-- `EdwardsPoint` (edwards.rs lines 302-310): a point in extended twisted
Edwards coordinates. -/
structure EdwardsPoint where
  X : F
  Y : F
  Z : F
  T : F
deriving DecidableEq

/-- Modelled from the spec: `ProjectivePoint` of the missing
`curve_models.rs` (spec §3): transient projective form without `T`. -/
structure ProjectivePoint where
  X : F
  Y : F
  Z : F
deriving DecidableEq

/-- Modelled from the spec: `CompletedPoint` of the missing `curve_models.rs`
(spec §3): the `((X:Z),(Y:T))` output of one group operation.  With the
labels of the spec §4.2 formulas, the stored fields are `(E, H, G, F)`, so
that the conversion to extended coordinates below yields the spec's result
quadruple `(E·F, G·H, F·G, E·H)`. -/
structure CompletedPoint where
  X : F
  Y : F
  Z : F
  T : F
deriving DecidableEq

/-- Modelled from the spec: `ProjectiveNielsPoint` of the missing
`curve_models.rs` (spec §3): the precomputed form `(Y+X, Y−X, Z, 2dT)`. -/
structure ProjectiveNielsPoint where
  Y_plus_X : F
  Y_minus_X : F
  Z : F
  T2d : F
deriving DecidableEq

/-- Modelled from the spec: `AffineNielsPoint` of the missing
`curve_models.rs` (spec §3): the precomputed form `(y+x, y−x, 2d·x·y)`. -/
structure AffineNielsPoint where
  y_plus_x : F
  y_minus_x : F
  xy2d : F
deriving DecidableEq

/-- `Identity for EdwardsPoint` (edwards.rs lines 346-355): `(0, 1, 1, 0)`. -/
def identity : EdwardsPoint := ⟨0, 1, 1, 0⟩

/-- `EdwardsPoint::to_projective` (edwards.rs lines 435-441): drop `T`. -/
def toProjective (P : EdwardsPoint) : ProjectivePoint := ⟨P.X, P.Y, P.Z⟩

/-- `EdwardsPoint::to_projective_niels` (edwards.rs lines 422-429). -/
def toProjectiveNiels (P : EdwardsPoint) : ProjectiveNielsPoint :=
  ⟨P.Y + P.X, P.Y - P.X, P.Z, P.T * EDWARDS_D2⟩

/-- `EdwardsPoint::to_affine_niels` (edwards.rs lines 445-455). -/
def toAffineNiels (P : EdwardsPoint) : AffineNielsPoint :=
  let recip := invert P.Z
  let x := P.X * recip
  let y := P.Y * recip
  ⟨y + x, y - x, x * y * EDWARDS_D2⟩

/-- Modelled from the spec (§4.2): `CompletedPoint::to_extended` of the
missing `curve_models.rs`: `(X·T, Y·Z, Z·T, X·Y)`. -/
def toExtended (c : CompletedPoint) : EdwardsPoint :=
  ⟨c.X * c.T, c.Y * c.Z, c.Z * c.T, c.X * c.Y⟩

/-- Modelled from the spec (§4.2): `CompletedPoint::to_projective` of the
missing `curve_models.rs`: `(X·T, Y·Z, Z·T)`. -/
def completedToProjective (c : CompletedPoint) : ProjectivePoint :=
  ⟨c.X * c.T, c.Y * c.Z, c.Z * c.T⟩

/-- Modelled from the spec (§4.2): `Extended + ProjectiveNiels → Completed`
of the missing `curve_models.rs`:
`A = (Y₁−X₁)·(Y₂−X₂)`, `B = (Y₁+X₁)·(Y₂+X₂)`, `C = T₁·(2dT₂)`,
`D = Z₁·(2Z₂)`, result `(E, H, G, F) = (B−A, B+A, D+C, D−C)`. -/
def addPN (P : EdwardsPoint) (N : ProjectiveNielsPoint) : CompletedPoint :=
  let A := (P.Y - P.X) * N.Y_minus_X
  let B := (P.Y + P.X) * N.Y_plus_X
  let C := P.T * N.T2d
  let D := 2 * (P.Z * N.Z)
  ⟨B - A, B + A, D + C, D - C⟩

/-- Modelled from the spec (§4.2): negation of a `ProjectiveNielsPoint`:
swap `(Y+X)` and `(Y−X)` and negate the `2dT` coordinate. -/
def pnNeg (N : ProjectiveNielsPoint) : ProjectiveNielsPoint :=
  ⟨N.Y_minus_X, N.Y_plus_X, N.Z, -N.T2d⟩

/-- Modelled from the spec (§4.2): `Extended − ProjectiveNiels → Completed`:
the addition formulas with the right operand's `(y+x)`/`(y−x)` swapped and
`2dT` negated. -/
def subPN (P : EdwardsPoint) (N : ProjectiveNielsPoint) : CompletedPoint :=
  addPN P (pnNeg N)

/-- Modelled from the spec (§4.2): negation of an `AffineNielsPoint`. -/
def anNeg (n : AffineNielsPoint) : AffineNielsPoint :=
  ⟨n.y_minus_x, n.y_plus_x, -n.xy2d⟩

/-- Modelled from the spec (§4.2): `Extended + AffineNiels → Completed`:
the mixed addition formulas with `Z₂ = 1`: `C = T₁·(2d·x₂y₂)`, `D = 2Z₁`. -/
def addAN (P : EdwardsPoint) (n : AffineNielsPoint) : CompletedPoint :=
  let A := (P.Y - P.X) * n.y_minus_x
  let B := (P.Y + P.X) * n.y_plus_x
  let C := P.T * n.xy2d
  let D := 2 * P.Z
  ⟨B - A, B + A, D + C, D - C⟩

/-- Modelled from the spec (§4.2): `ProjectivePoint::double → Completed` of
the missing `curve_models.rs`: `A = X²`, `B = Y²`, `C = 2Z²`, `D = −A`,
`E = (X+Y)²−A−B`, `G = D+B`, `F = G−C`, `H = D−B`, stored as `(E, H, G, F)`. -/
def projDouble (P : ProjectivePoint) : CompletedPoint :=
  let A := P.X ^ 2
  let B := P.Y ^ 2
  let C := 2 * P.Z ^ 2
  let D := -A
  let E := (P.X + P.Y) ^ 2 - A - B
  let G := D + B
  ⟨E, D - B, G, G - C⟩

/-- `Add for &EdwardsPoint` (edwards.rs lines 506-511):
`(self + &other.to_projective_niels()).to_extended()`. -/
def add (P Q : EdwardsPoint) : EdwardsPoint :=
  toExtended (addPN P (toProjectiveNiels Q))

/-- `Sub for &EdwardsPoint` (edwards.rs lines 523-528):
`(self - &other.to_projective_niels()).to_extended()`. -/
def sub (P Q : EdwardsPoint) : EdwardsPoint :=
  toExtended (subPN P (toProjectiveNiels Q))

/-- `Neg for &EdwardsPoint` (edwards.rs lines 557-568):
`(−X, Y, Z, −T)`. -/
def neg (P : EdwardsPoint) : EdwardsPoint := ⟨-P.X, P.Y, P.Z, -P.T⟩

/-- `EdwardsPoint::double` (edwards.rs lines 495-500):
`self.to_projective().double().to_extended()`. -/
def double (P : EdwardsPoint) : EdwardsPoint :=
  toExtended (projDouble (toProjective P))

/-- The doubling chain of `EdwardsPoint::mul_by_pow_2`: apply
`double().to_projective()` `n` times. -/
def mulByPow2Aux : ProjectivePoint → ℕ → ProjectivePoint
  | s, 0 => s
  | s, n + 1 => mulByPow2Aux (completedToProjective (projDouble s)) n

/-- `EdwardsPoint::mul_by_pow_2` (edwards.rs lines 846-856), for `k > 0`:
`k−1` doublings staying projective, then a final `double().to_extended()`. -/
def mulByPow2 (P : EdwardsPoint) (k : ℕ) : EdwardsPoint :=
  toExtended (projDouble (mulByPow2Aux (toProjective P) (k - 1)))

/-- `ConstantTimeEq for EdwardsPoint` (edwards.rs lines 395-406): compare
the cross-multiplied coordinates. -/
def ctEq (P Q : EdwardsPoint) : Bool :=
  decide (P.X * Q.Z = Q.X * P.Z) && decide (P.Y * Q.Z = Q.Y * P.Z)

/-- `PartialEq for EdwardsPoint` (edwards.rs lines 408-412):
`self.ct_eq(other).unwrap_u8() == 1u8`. -/
def peq (P Q : EdwardsPoint) : Bool := ctEq P Q

/-- `s[31] ^= sign << 7` (edwards.rs line 486): xor the top bit of the last
byte. -/
def xorHigh : List ℕ → Bool → List ℕ
  | [], _ => []
  | [b], bit => [b ^^^ (if bit then 128 else 0)]
  | b :: rest, bit => b :: xorHigh rest bit

/-- `EdwardsPoint::compress` (edwards.rs lines 479-488). -/
def compress (P : EdwardsPoint) : List ℕ :=
  let recip := invert P.Z
  let x := P.X * recip
  let y := P.Y * recip
  xorHigh (toBytes y) (isNeg x)

/-- The `y` decoded by `decompress` (edwards.rs line 184). -/
def decompY (s : List ℕ) : F := fromBytes s

/-- The numerator `u = y² - 1` of `decompress` (edwards.rs line 187). -/
def decompU (s : List ℕ) : F := decompY s ^ 2 - 1

/-- The denominator `v = d·y² + 1` of `decompress` (edwards.rs line 188). -/
def decompV (s : List ℕ) : F := decompY s ^ 2 * EDWARDS_D + 1

/-- The compressed sign bit `Choice::from(s[31] >> 7)` of `decompress`
(edwards.rs line 194). -/
def decompSign (s : List ℕ) : Bool := decide (s.getD 31 0 / 128 = 1)

/-- The `X` coordinate selected by `decompress` (edwards.rs lines 195-197):
the root returned by `sqrt_ratio_i`, conditionally negated so that its sign
matches the compressed sign bit. -/
def decompX (s : List ℕ) : F :=
  if (isNeg (sqrtRatioI (decompU s) (decompV s)).2 != decompSign s) = true
  then -(sqrtRatioI (decompU s) (decompV s)).2
  else (sqrtRatioI (decompU s) (decompV s)).2

/-- `CompressedEdwardsY::decompress` (edwards.rs lines 183-200). -/
def decompress (s : List ℕ) : Option EdwardsPoint :=
  if (sqrtRatioI (decompU s) (decompV s)).1 = false then none
  else some ⟨decompX s, decompY s, 1, decompX s * decompY s⟩

/-- `EdwardsPoint::to_montgomery` (edwards.rs lines 466-476):
`u = (Z+Y)/(Z−Y)`, serialized. -/
def toMontgomery (P : EdwardsPoint) : List ℕ :=
  let U := P.Z + P.Y
  let W := P.Z - P.Y
  toBytes (U * invert W)

/-- `Sum for EdwardsPoint` (edwards.rs lines 540-550):
`iter.fold(EdwardsPoint::identity(), |acc, item| acc + item.borrow())`. -/
def sumPoints (l : List EdwardsPoint) : EdwardsPoint :=
  l.foldl (fun acc item => add acc item) identity

/-- The validity invariant of `EdwardsPoint` as stated by the spec (§3):
`Z ≠ 0`, the affine coordinates `x = X/Z`, `y = Y/Z` satisfy the twisted
Edwards equation `−x²+y² = 1 + d·x²·y²`, and `X·Y = Z·T`. -/
def Valid (P : EdwardsPoint) : Prop :=
  P.Z ≠ 0 ∧
  -(P.X / P.Z) ^ 2 + (P.Y / P.Z) ^ 2 =
    1 + EDWARDS_D * (P.X / P.Z) ^ 2 * (P.Y / P.Z) ^ 2 ∧
  P.X * P.Y = P.Z * P.T


/-! ### Elementary field facts -/

theorem F_two_ne_zero : (2 : F) ≠ 0 := by decide

theorem F_neg_one_ne_one : (-1 : F) ≠ 1 := by decide

theorem sq_cases {x y : F} (h : x ^ 2 = y ^ 2) : x = y ∨ x = -y := by
  have h2 : (x - y) * (x + y) = 0 := by linear_combination h
  rcases mul_eq_zero.mp h2 with h3 | h3
  · exact Or.inl (sub_eq_zero.mp h3)
  · exact Or.inr (eq_neg_of_add_eq_zero_left h3)

theorem fermat {a : F} (ha : a ≠ 0) : a ^ (p - 1) = 1 :=
  ZMod.pow_card_sub_one_eq_one ha

theorem i_sq : SQRT_M1 ^ 2 = -1 := by
  rw [sq]; exact SQRT_M1_spec

theorem invert_eq_inv (a : F) : invert a = a⁻¹ := by
  rw [invert, fpow_eq _ _ (by norm_num [p])]
  by_cases h : a = 0
  · subst h
    rw [zero_pow (by norm_num [p]), inv_zero]
  · refine eq_inv_of_mul_eq_one_left ?_
    have : a ^ (p - 2) * a = a ^ (p - 1) := by
      rw [← pow_succ, show p - 2 + 1 = p - 1 from by norm_num [p]]
    rw [this]
    exact fermat h

/-- The field has no element of multiplicative order 8 (as `p ≡ 5 mod 8`). -/
theorem no_order8 {z : F} (hz : z ^ 4 = -1) : False := by
  have hz0 : z ≠ 0 := by
    intro h
    rw [h, zero_pow (by norm_num)] at hz
    exact (neg_ne_zero.mpr one_ne_zero) hz.symm
  have h8 : z ^ 8 = 1 := by
    have : (z ^ 4) ^ 2 = (-1 : F) ^ 2 := by rw [hz]
    rwa [← pow_mul, neg_one_sq] at this
  obtain ⟨k, hk⟩ : ∃ k, p - 1 = 8 * k + 4 := ⟨(p - 5) / 8, by norm_num [p]⟩
  have hf := fermat hz0
  rw [hk, pow_add, pow_mul, h8, one_pow, one_mul, hz] at hf
  exact F_neg_one_ne_one hf

theorem euler_nonsquare {a : F} (ha : a ≠ 0) (h : ¬ IsSquare a) :
    a ^ (p / 2) = -1 := by
  have h2 : (a ^ (p / 2)) ^ 2 = 1 ^ 2 := by
    rw [← pow_mul, one_pow]
    have he : p / 2 * 2 = p - 1 := by norm_num [p]
    rw [he]
    exact fermat ha
  rcases sq_cases h2 with h3 | h3
  · exact absurd ((ZMod.euler_criterion p ha).mpr h3) h
  · simpa using h3

theorem edwards_d_ne_zero : EDWARDS_D ≠ 0 := by decide

unseal powMod in
theorem edwards_d_nonsquare : ¬ IsSquare EDWARDS_D := by
  rw [ZMod.euler_criterion p edwards_d_ne_zero]
  intro h
  rw [show EDWARDS_D =
      ((37095705934669439343138083508754565189542113879843219016388785533085940283555 :
        ℕ) : F) from rfl] at h
  rw [← powMod_cast p 256 _ (p / 2) (by norm_num [p])] at h
  exact absurd h (by decide)

/-! ### Parity / sign facts -/

theorem val_pos_of_ne_zero {a : F} (h : a ≠ 0) : 0 < a.val :=
  Nat.pos_of_ne_zero fun hh => h ((ZMod.val_eq_zero a).mp hh)

theorem isNeg_zero : isNeg (0 : F) = false := by decide

theorem isNeg_neg_of_ne {a : F} (h : a ≠ 0) : isNeg (-a) = !(isNeg a) := by
  have hv : (-a).val = p - a.val := by
    rw [ZMod.neg_val]
    simp [h]
  have h1 : 0 < a.val := val_pos_of_ne_zero h
  have h2 : a.val < p := ZMod.val_lt a
  have hp2 : p % 2 = 1 := by norm_num [p]
  by_cases hpar : a.val % 2 = 1
  · have hb : isNeg a = true := (isNeg_iff a).mpr hpar
    rw [hb]
    simp only [Bool.not_true]
    rw [← Bool.not_eq_true]
    intro hcon
    have := (isNeg_iff (-a)).mp hcon
    omega
  · have hb : isNeg a = false := by
      rw [← Bool.not_eq_true]
      intro hcon
      exact hpar ((isNeg_iff a).mp hcon)
    rw [hb]
    simp only [Bool.not_false]
    apply (isNeg_iff (-a)).mpr
    omega

theorem isNeg_sqrtNormalize (r : F) : isNeg (sqrtNormalize r) = false := by
  rw [sqrtNormalize]
  by_cases hr : isNeg r = true
  · rw [if_pos hr]
    have hr0 : r ≠ 0 := by
      intro h
      rw [h, isNeg_zero] at hr
      exact Bool.false_ne_true hr
    rw [isNeg_neg_of_ne hr0, hr]
    rfl
  · rw [if_neg hr]
    exact Bool.not_eq_true _ ▸ (by simpa using hr)

theorem sqrtNormalize_sq (r : F) : sqrtNormalize r ^ 2 = r ^ 2 := by
  rw [sqrtNormalize]
  split
  · rw [neg_pow]
    simp
  · rfl


/-! ### Correctness of `sqrt_ratio_i` -/

theorem i_ne_zero : SQRT_M1 ≠ 0 := by decide

theorem i_ne_one : SQRT_M1 ≠ 1 := by decide

theorem i_ne_neg_one : SQRT_M1 ≠ -1 := by decide

theorem ne_neg_self {u : F} (hu : u ≠ 0) : u ≠ -u := by
  intro h
  apply hu
  have h2 : 2 * u = 0 := by linear_combination h
  rcases mul_eq_zero.mp h2 with h3 | h3
  · exact absurd h3 F_two_ne_zero
  · exact h3

theorem sqrtR0_eq (u v : F) :
    sqrtR0 u v = u * v ^ 3 * (u * v ^ 7) ^ ((p - 5) / 8) := by
  rw [sqrtR0, fpow_eq _ _ (by norm_num [p]),
    show (v ^ 2 * v) ^ 2 * v = v ^ 7 from by ring]
  ring

theorem sqrt_check_eq (u v : F) :
    v * sqrtR0 u v ^ 2 = u * (u * v ^ 7) ^ ((p - 1) / 4) := by
  rw [sqrtR0_eq]
  have h1 : ((u * v ^ 7) ^ ((p - 5) / 8)) ^ 2 = (u * v ^ 7) ^ ((p - 5) / 4) := by
    rw [← pow_mul, show (p - 5) / 8 * 2 = (p - 5) / 4 from by norm_num [p]]
  calc v * (u * v ^ 3 * (u * v ^ 7) ^ ((p - 5) / 8)) ^ 2
      = u * (u * v ^ 7) * ((u * v ^ 7) ^ ((p - 5) / 8)) ^ 2 := by ring
    _ = u * (u * v ^ 7) * (u * v ^ 7) ^ ((p - 5) / 4) := by rw [h1]
    _ = u * (u * v ^ 7) ^ ((p - 5) / 4 + 1) := by rw [pow_succ]; ring
    _ = u * (u * v ^ 7) ^ ((p - 1) / 4) := by
        rw [show (p - 5) / 4 + 1 = (p - 1) / 4 from by norm_num [p]]

theorem sqrtRatioI_isNeg (u v : F) : isNeg (sqrtRatioI u v).2 = false :=
  isNeg_sqrtNormalize _

theorem sqrtRatioI_spec (u v : F) (hv : v ≠ 0) :
    ((sqrtRatioI u v).1 = true ↔ IsSquare (u / v)) ∧
    ((sqrtRatioI u v).1 = true → (sqrtRatioI u v).2 ^ 2 = u / v) := by
  have hfst : (sqrtRatioI u v).1 =
      (decide (v * sqrtR0 u v ^ 2 = u) || decide (v * sqrtR0 u v ^ 2 = -u)) := rfl
  have hsnd : (sqrtRatioI u v).2 =
      sqrtNormalize
        (if (decide (v * sqrtR0 u v ^ 2 = -u) ||
             decide (v * sqrtR0 u v ^ 2 = -u * SQRT_M1)) = true
         then SQRT_M1 * sqrtR0 u v else sqrtR0 u v) := rfl
  by_cases hu : u = 0
  · subst hu
    have ht : sqrtR0 0 v = 0 := by rw [sqrtR0_eq]; ring
    have d1 : decide (v * sqrtR0 0 v ^ 2 = (0 : F)) = true := by
      apply decide_eq_true
      rw [ht]
      ring
    constructor
    · rw [hfst, d1]
      simp only [Bool.true_or, true_iff]
      exact ⟨0, by rw [zero_div, mul_zero]⟩
    · intro _
      rw [hsnd, sqrtNormalize_sq]
      have : ∀ b : Bool,
          (if b = true then SQRT_M1 * sqrtR0 0 v else sqrtR0 0 v) ^ 2 = (0 : F) / v := by
        intro b
        cases b <;> simp [ht, zero_div]
      exact this _
  · have hw : u * v ^ 7 ≠ 0 := mul_ne_zero hu (pow_ne_zero _ hv)
    have hC := sqrt_check_eq u v
    set t := sqrtR0 u v with htdef
    set ω := (u * v ^ 7) ^ ((p - 1) / 4) with hωdef
    have hω4 : ω ^ 4 = 1 := by
      rw [hωdef, ← pow_mul, show (p - 1) / 4 * 4 = p - 1 from by norm_num [p]]
      exact fermat hw
    have ht0 : t ≠ 0 := by
      intro h
      rw [h] at hC
      have : u * ω = 0 := by linear_combination -hC
      rcases mul_eq_zero.mp this with h3 | h3
      · exact hu h3
      · rw [h3] at hω4
        rw [zero_pow (by norm_num)] at hω4
        exact one_ne_zero hω4.symm
    have hsq : (ω ^ 2) ^ 2 = 1 ^ 2 := by
      rw [← pow_mul, one_pow]
      exact hω4
    rcases sq_cases hsq with h2 | h2
    · rcases sq_cases (show ω ^ 2 = 1 ^ 2 by rw [h2, one_pow]) with hc | hc
      · -- ω = 1 : check = u, the square root is t itself
        have hCu : v * t ^ 2 = u := by rw [hC, hc, mul_one]
        have d1 : decide (v * t ^ 2 = u) = true := decide_eq_true hCu
        have d2 : decide (v * t ^ 2 = -u) = false := by
          apply decide_eq_false
          rw [hCu]
          exact ne_neg_self hu
        have d3 : decide (v * t ^ 2 = -u * SQRT_M1) = false := by
          apply decide_eq_false
          rw [hCu]
          intro h
          apply i_ne_neg_one
          have h3 : u * (1 + SQRT_M1) = 0 := by linear_combination h
          rcases mul_eq_zero.mp h3 with h4 | h4
          · exact absurd h4 hu
          · linear_combination h4
        have hsqr : t ^ 2 = u / v := by
          rw [eq_div_iff hv]
          linear_combination hCu
        constructor
        · rw [hfst, d1]
          simp only [Bool.true_or, true_iff]
          exact ⟨t, by rw [← hsqr, sq]⟩
        · intro _
          rw [hsnd, d2, d3, sqrtNormalize_sq]
          simpa using hsqr
      · -- ω = -1 : check = -u, the square root is i·t
        have hCu : v * t ^ 2 = -u := by rw [hC, hc, mul_neg_one]
        have d1 : decide (v * t ^ 2 = u) = false := by
          apply decide_eq_false
          rw [hCu]
          exact fun h => ne_neg_self hu h.symm
        have d2 : decide (v * t ^ 2 = -u) = true := decide_eq_true hCu
        have hsqr : (SQRT_M1 * t) ^ 2 = u / v := by
          rw [eq_div_iff hv, mul_pow, i_sq]
          linear_combination -hCu
        constructor
        · rw [hfst, d1, d2]
          simp only [Bool.or_true, true_iff]
          exact ⟨SQRT_M1 * t, by rw [← hsqr, sq]⟩
        · intro _
          rw [hsnd, d2]
          simp only [Bool.true_or, if_true]
          rw [sqrtNormalize_sq]
          exact hsqr
    · rcases sq_cases (show ω ^ 2 = SQRT_M1 ^ 2 by rw [h2, i_sq]) with hc | hc
      · -- ω = i : u/v is not a square, and the check hits u·i
        have hCu : v * t ^ 2 = u * SQRT_M1 := by rw [hC, hc]
        have d1 : decide (v * t ^ 2 = u) = false := by
          apply decide_eq_false
          rw [hCu]
          intro h
          apply i_ne_one
          have h3 : u * (SQRT_M1 - 1) = 0 := by linear_combination h
          rcases mul_eq_zero.mp h3 with h4 | h4
          · exact absurd h4 hu
          · linear_combination h4
        have d2 : decide (v * t ^ 2 = -u) = false := by
          apply decide_eq_false
          rw [hCu]
          intro h
          apply i_ne_neg_one
          have h3 : u * (SQRT_M1 + 1) = 0 := by linear_combination h
          rcases mul_eq_zero.mp h3 with h4 | h4
          · exact absurd h4 hu
          · linear_combination h4
        constructor
        · rw [hfst, d1, d2]
          simp only [Bool.or_self]
          constructor
          · intro h
            exact absurd h (by simp)
          · rintro ⟨s, hs⟩
            exfalso
            have hs2 : s ^ 2 * v = u := by
              rw [sq]
              rw [div_eq_iff hv] at hs
              linear_combination -hs
            have hst : s ^ 2 = -(t ^ 2 * SQRT_M1) := by
              have h5 : v * (s ^ 2 + t ^ 2 * SQRT_M1) = 0 := by
                have hii : SQRT_M1 * SQRT_M1 = -1 := SQRT_M1_spec
                linear_combination hs2 + SQRT_M1 * hCu + u * hii
              rcases mul_eq_zero.mp h5 with h6 | h6
              · exact absurd h6 hv
              · linear_combination h6
            apply no_order8 (z := s * t⁻¹)
            have hz2 : (s * t⁻¹) ^ 2 = -SQRT_M1 := by
              rw [mul_pow, hst]
              field_simp
              ring
            rw [show (4 : ℕ) = 2 * 2 from rfl, pow_mul, hz2, neg_sq, i_sq]
        · intro h
          rw [hfst, d1, d2] at h
          exact absurd h (by simp)
      · -- ω = -i : u/v is not a square, and the check hits -u·i
        have hCu : v * t ^ 2 = -u * SQRT_M1 := by rw [hC, hc]; ring
        have d1 : decide (v * t ^ 2 = u) = false := by
          apply decide_eq_false
          rw [hCu]
          intro h
          apply i_ne_neg_one
          have h3 : u * (SQRT_M1 + 1) = 0 := by linear_combination -h
          rcases mul_eq_zero.mp h3 with h4 | h4
          · exact absurd h4 hu
          · linear_combination h4
        have d2 : decide (v * t ^ 2 = -u) = false := by
          apply decide_eq_false
          rw [hCu]
          intro h
          apply i_ne_one
          have h3 : u * (SQRT_M1 - 1) = 0 := by linear_combination -h
          rcases mul_eq_zero.mp h3 with h4 | h4
          · exact absurd h4 hu
          · linear_combination h4
        constructor
        · rw [hfst, d1, d2]
          simp only [Bool.or_self]
          constructor
          · intro h
            exact absurd h (by simp)
          · rintro ⟨s, hs⟩
            exfalso
            have hs2 : s ^ 2 * v = u := by
              rw [sq]
              rw [div_eq_iff hv] at hs
              linear_combination -hs
            have hst : s ^ 2 = t ^ 2 * SQRT_M1 := by
              have h5 : v * (s ^ 2 - t ^ 2 * SQRT_M1) = 0 := by
                have hii : SQRT_M1 * SQRT_M1 = -1 := SQRT_M1_spec
                linear_combination hs2 - SQRT_M1 * hCu + u * hii
              rcases mul_eq_zero.mp h5 with h6 | h6
              · exact absurd h6 hv
              · linear_combination h6
            apply no_order8 (z := s * t⁻¹)
            have hz2 : (s * t⁻¹) ^ 2 = SQRT_M1 := by
              rw [mul_pow, hst]
              field_simp
            rw [show (4 : ℕ) = 2 * 2 from rfl, pow_mul, hz2, i_sq]
        · intro h
          rw [hfst, d1, d2] at h
          exact absurd h (by simp)


/-! ### More byte-level lemmas -/

theorem getD_natToBytes_pow : ∀ (k n i : ℕ), i < k →
    (natToBytes k n).getD i 0 = n / 256 ^ i % 256 := by
  intro k
  induction k with
  | zero => intro n i h; omega
  | succ m ih =>
    intro n i h
    cases i with
    | zero => simp [natToBytes]
    | succ j =>
      have := ih (n / 256) j (by omega)
      simp only [natToBytes, List.getD_cons_succ]
      rw [this, Nat.div_div_eq_div_mul]
      ring_nf

theorem val_lt_2_255 (a : F) : a.val < 2 ^ 255 :=
  lt_trans (ZMod.val_lt a) p_lt

theorem toBytes_getD31 (a : F) : (toBytes a).getD 31 0 = a.val / 256 ^ 31 := by
  rw [toBytes, getD_natToBytes_pow 32 a.val 31 (by norm_num)]
  have h := val_lt_2_255 a
  have h2 : a.val / 256 ^ 31 < 128 := by
    apply Nat.div_lt_of_lt_mul
    calc a.val < 2 ^ 255 := h
    _ = 256 ^ 31 * 128 := by norm_num
  omega

theorem toBytes_getD31_lt (a : F) : (toBytes a).getD 31 0 < 128 := by
  rw [toBytes_getD31]
  apply Nat.div_lt_of_lt_mul
  calc a.val < 2 ^ 255 := val_lt_2_255 a
  _ = 256 ^ 31 * 128 := by norm_num

theorem xor_128_of_lt {b : ℕ} (hb : b < 128) : b ^^^ 128 = b + 128 := by
  revert hb
  revert b
  decide

theorem maskHigh_cons_cons (b c : ℕ) (rest : List ℕ) :
    maskHigh (b :: c :: rest) = b :: maskHigh (c :: rest) := rfl

theorem xorHigh_cons_cons (b c : ℕ) (rest : List ℕ) (bit : Bool) :
    xorHigh (b :: c :: rest) bit = b :: xorHigh (c :: rest) bit := rfl

theorem xorHigh_length : ∀ (l : List ℕ) (bit : Bool),
    (xorHigh l bit).length = l.length := by
  intro l
  induction l with
  | nil => intro bit; rfl
  | cons b tail ih =>
    intro bit
    cases tail with
    | nil => rfl
    | cons c rest =>
      rw [xorHigh_cons_cons]
      simp only [List.length_cons]
      rw [ih bit]
      simp

theorem maskHigh_cons_of_ne (b : ℕ) {l : List ℕ} (h : l ≠ []) :
    maskHigh (b :: l) = b :: maskHigh l := by
  cases l with
  | nil => exact absurd rfl h
  | cons c rest => rfl

theorem mask_xor : ∀ (l : List ℕ) (bit : Bool),
    (∀ x, l.getLast? = some x → x < 128) → maskHigh (xorHigh l bit) = l := by
  intro l
  induction l with
  | nil => intro bit h; rfl
  | cons b tail ih =>
    intro bit h
    cases tail with
    | nil =>
      have hb : b < 128 := h b rfl
      show maskHigh [b ^^^ (if bit then 128 else 0)] = [b]
      cases bit
      · show [(b ^^^ 0) % 128] = [b]
        rw [Nat.xor_zero, Nat.mod_eq_of_lt hb]
      · show [(b ^^^ 128) % 128] = [b]
        rw [xor_128_of_lt hb]
        congr 1
        omega
    | cons c rest =>
      have hne : xorHigh (c :: rest) bit ≠ [] := by
        intro hcon
        have := xorHigh_length (c :: rest) bit
        rw [hcon] at this
        simp at this
      rw [xorHigh_cons_cons, maskHigh_cons_of_ne b hne,
        ih bit (fun x hx => h x (by rwa [List.getLast?_cons_cons]))]

theorem toBytes_getLast (a : F) :
    ∀ x, (toBytes a).getLast? = some x → x < 128 := by
  intro x hx
  have hlen : (toBytes a).length = 32 := toBytes_length a
  rw [List.getLast?_eq_getElem?, hlen] at hx
  have hD := toBytes_getD31_lt a
  rw [List.getD_eq_getElem?_getD, show (32 : ℕ) - 1 = 31 from rfl] at *
  rw [hx] at hD
  simpa using hD

theorem fromBytes_toBytes_xor (a : F) (bit : Bool) :
    fromBytes (xorHigh (toBytes a) bit) = a := by
  rw [fromBytes, mask_xor _ _ (toBytes_getLast a), toBytes,
    bytesToNat_natToBytes 32 a.val (by
      have := val_lt_2_255 a
      calc a.val < 2 ^ 255 := this
      _ < 256 ^ 32 := by norm_num)]
  exact ZMod.natCast_zmod_val a

theorem xorHigh_getD31 : ∀ (l : List ℕ) (bit : Bool), l.length = 32 →
    (xorHigh l bit).getD 31 0 = (l.getD 31 0) ^^^ (if bit then 128 else 0) := by
  have main : ∀ (k : ℕ) (l : List ℕ) (bit : Bool), l.length = k + 1 →
      (xorHigh l bit).getD k 0 =
        (l.getD k 0) ^^^ (if bit then 128 else 0) := by
    intro k
    induction k with
    | zero =>
      intro l bit hl
      match l with
      | [b] => rfl
    | succ m ih =>
      intro l bit hl
      match l with
      | b :: c :: rest =>
        rw [xorHigh_cons_cons]
        simp only [List.getD_cons_succ]
        exact ih (c :: rest) bit (by simpa using hl)
  intro l bit hl
  exact main 31 l bit (by omega)

/-! ### The denominator of decompression is never zero -/

theorem v_ne_zero (y : F) : y ^ 2 * EDWARDS_D + 1 ≠ 0 := by
  intro h
  by_cases hy : y = 0
  · rw [hy] at h
    simp at h
  · apply edwards_d_nonsquare
    refine ⟨SQRT_M1 * y⁻¹, ?_⟩
    have h2 : EDWARDS_D * y ^ 2 = -1 := by linear_combination h
    have hy2 : y ^ 2 ≠ 0 := pow_ne_zero _ hy
    have hcalc : SQRT_M1 * y⁻¹ * (SQRT_M1 * y⁻¹) * y ^ 2 = -1 := by
      have hinv : y⁻¹ * y = 1 := inv_mul_cancel₀ hy
      calc SQRT_M1 * y⁻¹ * (SQRT_M1 * y⁻¹) * y ^ 2
          = SQRT_M1 * SQRT_M1 * (y⁻¹ * y * (y⁻¹ * y)) := by ring
        _ = -1 := by rw [hinv, SQRT_M1_spec]; ring
    exact mul_right_cancel₀ hy2 (h2.trans hcalc.symm)


/-! ### Decompression analysis -/

theorem decompV_ne_zero (s : List ℕ) : decompV s ≠ 0 := v_ne_zero (decompY s)

theorem decompress_eq_none_iff (s : List ℕ) :
    decompress s = none ↔ (sqrtRatioI (decompU s) (decompV s)).1 = false := by
  rw [decompress]
  by_cases h : (sqrtRatioI (decompU s) (decompV s)).1 = false
  · rw [if_pos h]
    simp [h]
  · rw [if_neg h]
    simp [h]

theorem decompress_some_of (s : List ℕ)
    (h : (sqrtRatioI (decompU s) (decompV s)).1 = true) :
    decompress s = some ⟨decompX s, decompY s, 1, decompX s * decompY s⟩ := by
  rw [decompress, if_neg (by simp [h])]

theorem decompress_some_inv (s : List ℕ) (P : EdwardsPoint)
    (h : decompress s = some P) :
    (sqrtRatioI (decompU s) (decompV s)).1 = true ∧
      P = ⟨decompX s, decompY s, 1, decompX s * decompY s⟩ := by
  rw [decompress] at h
  by_cases hc : (sqrtRatioI (decompU s) (decompV s)).1 = false
  · rw [if_pos hc] at h
    exact absurd h (by simp)
  · rw [if_neg hc] at h
    refine ⟨by simpa using hc, ?_⟩
    exact (Option.some_injective _ h).symm

theorem decompX_cases (s : List ℕ) :
    decompX s = (sqrtRatioI (decompU s) (decompV s)).2 ∨
      decompX s = -(sqrtRatioI (decompU s) (decompV s)).2 := by
  rw [decompX]
  split
  · exact Or.inr rfl
  · exact Or.inl rfl

theorem decompX_sign (s : List ℕ) :
    (decompX s ≠ 0 → isNeg (decompX s) = decompSign s) ∧
      (decompX s = 0 → isNeg (decompX s) = false) := by
  have hr : isNeg (sqrtRatioI (decompU s) (decompV s)).2 = false :=
    sqrtRatioI_isNeg _ _
  rw [decompX, hr]
  cases hs : decompSign s
  · simp only [bne_self_eq_false, Bool.false_eq_true, if_false]
    exact ⟨fun _ => hr, fun _ => hr⟩
  · simp only [Bool.bne_true, Bool.not_false, if_true]
    constructor
    · intro hne
      have hr0 : (sqrtRatioI (decompU s) (decompV s)).2 ≠ 0 := by
        intro hcon
        rw [hcon] at hne
        simp at hne
      rw [isNeg_neg_of_ne hr0, hr]
      rfl
    · intro h0
      rw [neg_eq_zero.mp h0, neg_zero]
      exact isNeg_zero

theorem decompX_sq (s : List ℕ) :
    decompX s ^ 2 = (sqrtRatioI (decompU s) (decompV s)).2 ^ 2 := by
  rcases decompX_cases s with h | h
  · rw [h]
  · rw [h]
    exact neg_sq _

/-- The input used to refute the sign clause of claim C1: the canonical
encoding of `y = 1` with the sign bit (bit 255) forced to `1`. -/
def cexBytes : List ℕ := 1 :: (List.replicate 30 0 ++ [128])

/-- The canonical encoding of the identity point, `y = 1`, sign bit `0`. -/
def idBytes : List ℕ := 1 :: List.replicate 31 0

unseal powMod in
/-- **C1, counterexample**: on the 32-byte input encoding `y = 1` with
bit 255 set, `decompress` succeeds and returns the identity, whose
`X`-coordinate has sign `0`, while bit 255 of the input is `1` — so the
returned point's `X`-sign does not equal bit 255 of `s` as claimed. -/
theorem claim1_counterexample :
    decompress cexBytes = some identity ∧ isNeg identity.X = false ∧
      decompSign cexBytes = true :=
  ⟨by decide, by decide, by decide⟩

/-- **C1 (amended)**: for every 32-byte input `s`, `decompress` returns
`none` exactly when `u/v` is a non-square in the field (`u = y²−1`,
`v = d·y²+1`, `y` decoded from `s` with bit 255 masked); otherwise it
returns `some (X, Y, 1, X·Y)` which satisfies the curve equation and the
Segre identity, and whose `X`-coordinate's sign equals bit 255 of `s`
whenever `X ≠ 0`; when `X = 0` the sign is `0` (even if bit 255 was set —
the amendment forced by `claim1_counterexample`). -/
theorem claim1_decompress_characterization (s : List ℕ)
    (hlen : s.length = 32) (hbytes : ∀ b ∈ s, b < 256) :
    (decompress s = none ↔
      ¬ IsSquare ((fromBytes s ^ 2 - 1) / (EDWARDS_D * fromBytes s ^ 2 + 1))) ∧
    (∀ P, decompress s = some P →
      P.Z = 1 ∧ P.T = P.X * P.Y ∧ Valid P ∧
      (P.X ≠ 0 → isNeg P.X = decompSign s) ∧
      (P.X = 0 → isNeg P.X = false)) := by
  have hveq : decompV s = EDWARDS_D * fromBytes s ^ 2 + 1 := by
    rw [decompV, decompY]
    ring
  have hueq : decompU s = fromBytes s ^ 2 - 1 := by rw [decompU, decompY]
  have hv := decompV_ne_zero s
  have hspec := sqrtRatioI_spec (decompU s) (decompV s) hv
  constructor
  · rw [decompress_eq_none_iff, ← hueq, ← hveq, ← hspec.1]
    cases h : (sqrtRatioI (decompU s) (decompV s)).1 <;> simp
  · intro P hP
    obtain ⟨hfst, hPeq⟩ := decompress_some_inv s P hP
    subst hPeq
    have hsq := hspec.2 hfst
    refine ⟨rfl, rfl, ?_, (decompX_sign s).1, (decompX_sign s).2⟩
    refine ⟨one_ne_zero, ?_, show decompX s * decompY s =
      1 * (decompX s * decompY s) from by ring⟩
    show -(decompX s / 1) ^ 2 + (decompY s / 1) ^ 2 =
      1 + EDWARDS_D * (decompX s / 1) ^ 2 * (decompY s / 1) ^ 2
    simp only [div_one]
    have hXv : decompX s ^ 2 * decompV s = decompU s := by
      rw [decompX_sq, hsq, div_mul_cancel₀ _ hv]
    simp only [decompU, decompV] at hXv
    linear_combination -hXv

/-- Closed witness for `claim1_decompress_characterization`, at the canonical
encoding of the identity point. -/
theorem claim1_witness :
    idBytes.length = 32 ∧ (∀ b ∈ idBytes, b < 256) ∧
    ((decompress idBytes = none ↔
      ¬ IsSquare ((fromBytes idBytes ^ 2 - 1) /
        (EDWARDS_D * fromBytes idBytes ^ 2 + 1))) ∧
    (∀ P, decompress idBytes = some P →
      P.Z = 1 ∧ P.T = P.X * P.Y ∧ Valid P ∧
      (P.X ≠ 0 → isNeg P.X = decompSign idBytes) ∧
      (P.X = 0 → isNeg P.X = false))) :=
  ⟨by decide, by decide,
    claim1_decompress_characterization idBytes (by decide) (by decide)⟩


/-! ### Validity of the identity; claims C6, C8, C10 -/

theorem identity_valid : Valid identity := by
  refine ⟨one_ne_zero, ?_, ?_⟩
  · show -((0 : F) / 1) ^ 2 + ((1 : F) / 1) ^ 2 =
      1 + EDWARDS_D * ((0 : F) / 1) ^ 2 * ((1 : F) / 1) ^ 2
    norm_num
  · show (0 : F) * 1 = 1 * 0
    ring

/-- **C6**: constant-time equality compares cross-multiplied coordinates:
for valid `P`, `Q`, `ct_eq P Q = 1` iff `X₁·Z₂ = X₂·Z₁` and `Y₁·Z₂ = Y₂·Z₁`;
in particular the projectively distinct representatives `(0,2,2,0)` and
`(0,1,1,0)` of the identity compare equal. -/
theorem claim6_ct_eq_cross_mul (P Q : EdwardsPoint)
    (hP : Valid P) (hQ : Valid Q) :
    (ctEq P Q = true ↔ (P.X * Q.Z = Q.X * P.Z ∧ P.Y * Q.Z = Q.Y * P.Z)) ∧
    ctEq ⟨0, 2, 2, 0⟩ ⟨0, 1, 1, 0⟩ = true := by
  constructor
  · rw [ctEq, Bool.and_eq_true, decide_eq_true_iff, decide_eq_true_iff]
  · decide

/-- Closed witness for `claim6_ct_eq_cross_mul` at the identity point. -/
theorem claim6_witness :
    Valid identity ∧
    ((ctEq identity identity = true ↔
      (identity.X * identity.Z = identity.X * identity.Z ∧
       identity.Y * identity.Z = identity.Y * identity.Z)) ∧
     ctEq ⟨0, 2, 2, 0⟩ ⟨0, 1, 1, 0⟩ = true) :=
  ⟨identity_valid, claim6_ct_eq_cross_mul identity identity identity_valid identity_valid⟩

/-- **C8**: for every valid point, `to_montgomery` returns the canonical
32-byte encoding of the field element `(Z+Y)·(Z−Y)⁻¹`; in the exceptional
case `Y = Z` (the Edwards identity class) the result is the encoding of `0`,
the Montgomery 2-torsion point, because inversion maps `0` to `0`. -/
theorem claim8_to_montgomery (P : EdwardsPoint) (hP : Valid P) :
    toMontgomery P = toBytes ((P.Z + P.Y) * (P.Z - P.Y)⁻¹) ∧
    (P.Y = P.Z → toMontgomery P = toBytes 0) := by
  have h1 : toMontgomery P = toBytes ((P.Z + P.Y) * (P.Z - P.Y)⁻¹) := by
    rw [toMontgomery, invert_eq_inv]
  refine ⟨h1, fun h => ?_⟩
  rw [h1, show P.Z - P.Y = 0 from by rw [h]; ring, inv_zero, mul_zero]

/-- Closed witness for `claim8_to_montgomery` at the identity point (which
also exercises the exceptional `Y = Z` branch). -/
theorem claim8_witness :
    Valid identity ∧
    (toMontgomery identity =
      toBytes ((identity.Z + identity.Y) * (identity.Z - identity.Y)⁻¹) ∧
    (identity.Y = identity.Z → toMontgomery identity = toBytes 0)) :=
  ⟨identity_valid, claim8_to_montgomery identity identity_valid⟩

/-- **C10**: summation over a list of Edwards points is the left fold of
point addition starting from the identity; in particular the empty sum is
the identity point `(0, 1, 1, 0)`. -/
theorem claim10_sum_foldl (l : List EdwardsPoint) :
    sumPoints l = l.foldl (fun acc item => add acc item) identity ∧
      sumPoints [] = identity ∧ identity = ⟨0, 1, 1, 0⟩ :=
  ⟨rfl, rfl, rfl⟩


/-! ### Byte-encoding canonicity (claim C9) -/

theorem natToBytes_bytesToNat : ∀ (l : List ℕ) (k : ℕ), l.length = k →
    (∀ b ∈ l, b < 256) → natToBytes k (bytesToNat l) = l := by
  intro l
  induction l with
  | nil =>
    intro k hk hb
    subst hk
    rfl
  | cons b rest ih =>
    intro k hk hb
    subst hk
    show natToBytes (rest.length + 1) (b + 256 * bytesToNat rest) = b :: rest
    have hblt : b < 256 := hb b (by simp)
    have h1 : (b + 256 * bytesToNat rest) % 256 = b := by omega
    have h2 : (b + 256 * bytesToNat rest) / 256 = bytesToNat rest := by omega
    simp only [natToBytes, h1, h2]
    rw [ih rest.length rfl (fun x hx => hb x (by simp [hx]))]

theorem maskHigh_id : ∀ (l : List ℕ),
    (∀ x, l.getLast? = some x → x < 128) → maskHigh l = l := by
  intro l
  induction l with
  | nil => intro h; rfl
  | cons b tail ih =>
    intro h
    cases tail with
    | nil =>
      have hb : b < 128 := h b rfl
      show [b % 128] = [b]
      rw [Nat.mod_eq_of_lt hb]
    | cons c rest =>
      rw [maskHigh_cons_cons,
        ih (fun x hx => h x (by rwa [List.getLast?_cons_cons]))]

theorem bytesToNat_maskHigh : ∀ (l : List ℕ) (k : ℕ), l.length = k + 1 →
    (∀ b ∈ l, b < 256) →
    bytesToNat (maskHigh l) = bytesToNat l % (256 ^ k * 128) := by
  intro l
  induction l with
  | nil => intro k hk hb; simp at hk
  | cons b tail ih =>
    intro k hk hb
    cases tail with
    | nil =>
      have hk0 : k = 0 := by simpa using hk
      subst hk0
      show bytesToNat [b % 128] = bytesToNat [b] % (256 ^ 0 * 128)
      show b % 128 + 256 * 0 = (b + 256 * 0) % (256 ^ 0 * 128)
      norm_num
    | cons c rest =>
      obtain ⟨m, hm⟩ : ∃ m, k = m + 1 := by
        have : (b :: c :: rest).length = k + 1 := hk
        simp only [List.length_cons] at this
        exact ⟨rest.length, by omega⟩
      subst hm
      have hlen : (c :: rest).length = m + 1 := by
        have : (b :: c :: rest).length = m + 1 + 1 := hk
        simpa using this
      have ihc := ih m hlen (fun x hx => hb x (List.mem_cons_of_mem b hx))
      rw [maskHigh_cons_cons]
      show b + 256 * bytesToNat (maskHigh (c :: rest)) =
        (b + 256 * bytesToNat (c :: rest)) % (256 ^ (m + 1) * 128)
      rw [ihc]
      set M := bytesToNat (c :: rest) with hM
      set K := 256 ^ m * 128 with hK
      have hKpos : 0 < K := by positivity
      have hpow : 256 ^ (m + 1) * 128 = 256 * K := by rw [hK]; ring
      rw [hpow]
      have hblt : b < 256 := hb b (by simp)
      have hd := Nat.div_add_mod M K
      have h256 : 256 * M = 256 * (M % K) + 256 * K * (M / K) := by
        conv_lhs => rw [← hd]
        ring
      have hmlt : M % K < K := Nat.mod_lt _ hKpos
      calc b + 256 * (M % K)
          = (b + 256 * (M % K)) % (256 * K) := by
            have hlt2 : b + 256 * (M % K) < 256 * K := by omega
            exact (Nat.mod_eq_of_lt hlt2).symm
        _ = (b + 256 * (M % K) + 256 * K * (M / K)) % (256 * K) := by
            rw [Nat.add_mul_mod_self_left]
        _ = (b + 256 * M) % (256 * K) := by rw [h256]; ring_nf

/-- **C9**: `to_bytes` produces the unique 32-byte little-endian encoding of
the canonical representative in `[0, p)` with bit 255 clear, and
`from_bytes` inverts it; `from_bytes` masks bit 255 and does not reject
non-canonical input: on any 32-byte input it yields the masked value mod
`p`; in particular the encoding of `2^255 − 18` decodes to `1`. -/
theorem claim9_field_bytes (a : F) :
    (toBytes a).length = 32 ∧ (∀ b ∈ toBytes a, b < 256) ∧
    bytesToNat (toBytes a) = a.val ∧ a.val < p ∧
    (toBytes a).getD 31 0 / 128 = 0 ∧
    (∀ l : List ℕ, l.length = 32 → (∀ b ∈ l, b < 256) →
      bytesToNat l = a.val → l = toBytes a) ∧
    fromBytes (toBytes a) = a ∧
    (∀ s : List ℕ, s.length = 32 → (∀ b ∈ s, b < 256) →
      fromBytes s = ((bytesToNat s % 2 ^ 255 : ℕ) : F)) ∧
    fromBytes (natToBytes 32 (2 ^ 255 - 18)) = 1 := by
  have hval : a.val < 256 ^ 32 := by
    calc a.val < 2 ^ 255 := val_lt_2_255 a
    _ < 256 ^ 32 := by norm_num
  have hround : bytesToNat (toBytes a) = a.val :=
    bytesToNat_natToBytes 32 a.val hval
  refine ⟨toBytes_length a, fun b hb => natToBytes_lt 32 a.val b hb, hround,
    ZMod.val_lt a, ?_, ?_, ?_, ?_, ?_⟩
  · have := toBytes_getD31_lt a
    omega
  · intro l hlen hb hv
    rw [← natToBytes_bytesToNat l 32 hlen hb, hv, toBytes]
  · rw [fromBytes, maskHigh_id _ (toBytes_getLast a), hround]
    exact ZMod.natCast_zmod_val a
  · intro s hlen hb
    rw [fromBytes, bytesToNat_maskHigh s 31 hlen hb,
      show (256 : ℕ) ^ 31 * 128 = 2 ^ 255 from by norm_num]
  · have h18 : (2 ^ 255 - 18 : ℕ) < 256 ^ 32 := by norm_num
    rw [fromBytes, bytesToNat_maskHigh (natToBytes 32 (2 ^ 255 - 18)) 31
      (natToBytes_length 32 _) (fun b hb => natToBytes_lt 32 _ b hb),
      bytesToNat_natToBytes 32 _ h18,
      show (256 : ℕ) ^ 31 * 128 = 2 ^ 255 from by norm_num,
      show (2 ^ 255 - 18) % 2 ^ 255 = 2 ^ 255 - 18 from by norm_num]
    rw [show ((2 ^ 255 - 18 : ℕ) : F) = ((p : ℕ) : F) + 1 from by
      rw [show (2 ^ 255 - 18 : ℕ) = p + 1 from by norm_num [p]]
      push_cast
      ring]
    rw [ZMod.natCast_self]
    ring


/-- Closed witness for `claim9_field_bytes`: the inner quantified clause at
`a = 1` and the concrete 32-byte encoding of `1`. -/
theorem claim9_witness :
    (natToBytes 32 1).length = 32 ∧ (∀ b ∈ natToBytes 32 1, b < 256) ∧
      fromBytes (natToBytes 32 1) = ((bytesToNat (natToBytes 32 1) % 2 ^ 255 : ℕ) : F) :=
  ⟨by decide, by decide,
    (claim9_field_bytes 1).2.2.2.2.2.2.2.1 (natToBytes 32 1) (by decide) (by decide)⟩

/-! ### Compression analysis (claims C7, C2) -/

theorem compress_eq (P : EdwardsPoint) :
    compress P = xorHigh (toBytes (P.Y * invert P.Z)) (isNeg (P.X * invert P.Z)) := rfl

theorem compress_div (P : EdwardsPoint) :
    compress P = xorHigh (toBytes (P.Y / P.Z)) (isNeg (P.X / P.Z)) := by
  rw [compress_eq, invert_eq_inv, ← div_eq_mul_inv, ← div_eq_mul_inv]

theorem invert_one : invert (1 : F) = 1 := by rw [invert_eq_inv, inv_one]

theorem fromBytes_compress (P : EdwardsPoint) :
    fromBytes (compress P) = P.Y / P.Z := by
  rw [compress_div, fromBytes_toBytes_xor]

theorem compress_length (P : EdwardsPoint) : (compress P).length = 32 := by
  rw [compress_eq, xorHigh_length]
  exact toBytes_length _

theorem xorHigh_getD31_true (l : List ℕ) (hl : l.length = 32) :
    (xorHigh l true).getD 31 0 = (l.getD 31 0) ^^^ 128 := by
  rw [xorHigh_getD31 l true hl]
  simp

theorem xorHigh_getD31_false (l : List ℕ) (hl : l.length = 32) :
    (xorHigh l false).getD 31 0 = l.getD 31 0 := by
  rw [xorHigh_getD31 l false hl]
  simp

theorem decompSign_compress (P : EdwardsPoint) :
    decompSign (compress P) = isNeg (P.X / P.Z) := by
  rw [decompSign, compress_div]
  have hlt := toBytes_getD31_lt (P.Y / P.Z)
  cases h : isNeg (P.X / P.Z)
  · rw [xorHigh_getD31_false _ (toBytes_length _)]
    simp only [decide_eq_false_iff_not]
    omega
  · rw [xorHigh_getD31_true _ (toBytes_length _), xor_128_of_lt hlt]
    simp only [decide_eq_true_iff]
    omega

theorem compress_components {P Q : EdwardsPoint}
    (h : compress P = compress Q) :
    P.Y / P.Z = Q.Y / Q.Z ∧ isNeg (P.X / P.Z) = isNeg (Q.X / Q.Z) := by
  have hy : P.Y / P.Z = Q.Y / Q.Z := by
    have := congrArg fromBytes h
    rwa [fromBytes_compress, fromBytes_compress] at this
  refine ⟨hy, ?_⟩
  have hbit := congrArg (fun l => l.getD 31 0) h
  simp only at hbit
  rw [compress_div, compress_div, hy] at hbit
  have hlt := toBytes_getD31_lt (Q.Y / Q.Z)
  cases h1 : isNeg (P.X / P.Z) <;> cases h2 : isNeg (Q.X / Q.Z) <;>
    rw [h1, h2] at hbit <;>
    first
      | rfl
      | (rw [xorHigh_getD31_false _ (toBytes_length _),
          xorHigh_getD31_true _ (toBytes_length _),
          xor_128_of_lt hlt] at hbit
         omega)

theorem valid_affine_curve {P : EdwardsPoint} (hP : Valid P) :
    (P.X / P.Z) ^ 2 * ((P.Y / P.Z) ^ 2 * EDWARDS_D + 1) = (P.Y / P.Z) ^ 2 - 1 := by
  linear_combination -hP.2.1

theorem sign_eq_inj {x₁ x₂ : F} (hsq : x₁ ^ 2 = x₂ ^ 2)
    (hs : isNeg x₁ = isNeg x₂) : x₁ = x₂ := by
  rcases sq_cases hsq with h | h
  · exact h
  · by_cases h0 : x₂ = 0
    · rw [h, h0, neg_zero]
    · rw [h, isNeg_neg_of_ne h0] at hs
      simp at hs

theorem ctEq_iff_affine (P Q : EdwardsPoint) (hPz : P.Z ≠ 0) (hQz : Q.Z ≠ 0) :
    ctEq P Q = true ↔ (P.X / P.Z = Q.X / Q.Z ∧ P.Y / P.Z = Q.Y / Q.Z) := by
  rw [ctEq, Bool.and_eq_true, decide_eq_true_iff, decide_eq_true_iff,
    div_eq_div_iff hPz hQz, div_eq_div_iff hPz hQz]

theorem compress_eq_iff_affine {P Q : EdwardsPoint} (hP : Valid P) (hQ : Valid Q) :
    compress P = compress Q ↔ (P.X / P.Z = Q.X / Q.Z ∧ P.Y / P.Z = Q.Y / Q.Z) := by
  constructor
  · intro h
    obtain ⟨hy, hs⟩ := compress_components h
    have hx2 : (P.X / P.Z) ^ 2 = (Q.X / Q.Z) ^ 2 := by
      have h1 := valid_affine_curve hP
      have h2 := valid_affine_curve hQ
      rw [hy] at h1
      have hv := v_ne_zero (Q.Y / Q.Z)
      exact mul_right_cancel₀ hv (h1.trans h2.symm)
    exact ⟨sign_eq_inj hx2 hs, hy⟩
  · intro ⟨hx, hy⟩
    rw [compress_div, compress_div, hx, hy]

/-- **C7**: the `PartialEq` implementation on `EdwardsPoint` agrees, on valid
points, with "compress and compare bytes": `P == Q` returns `true` exactly
when `compress P` and `compress Q` produce identical 32-byte strings.  (The
source implements `==` by delegating to `ct_eq`, which is extensionally the
same relation.) -/
theorem claim7_eq_iff_compress_eq (P Q : EdwardsPoint)
    (hP : Valid P) (hQ : Valid Q) :
    peq P Q = true ↔ compress P = compress Q := by
  rw [show peq P Q = ctEq P Q from rfl, ctEq_iff_affine P Q hP.1 hQ.1,
    compress_eq_iff_affine hP hQ]

/-- Closed witness for `claim7_eq_iff_compress_eq` at the identity point. -/
theorem claim7_witness :
    Valid identity ∧ (peq identity identity = true ↔
      compress identity = compress identity) :=
  ⟨identity_valid, claim7_eq_iff_compress_eq identity identity
    identity_valid identity_valid⟩

/-- **C2**: compress/decompress round trip: for every valid point `P`,
`decompress (compress P)` succeeds, and compressing the decompressed point
returns exactly the bytes of `compress P`. -/
theorem claim2_round_trip (P : EdwardsPoint) (hP : Valid P) :
    ∃ Q, decompress (compress P) = some Q ∧ compress Q = compress P := by
  set s := compress P with hs
  set x := P.X / P.Z with hx
  set y := P.Y / P.Z with hy
  have hYs : decompY s = y := fromBytes_compress P
  have hveq : decompV s = y ^ 2 * EDWARDS_D + 1 := by rw [decompV, hYs]
  have hueq : decompU s = y ^ 2 - 1 := by rw [decompU, hYs]
  have hv : decompV s ≠ 0 := decompV_ne_zero s
  have hx2v : x ^ 2 * decompV s = decompU s := by
    rw [hveq, hueq]
    exact valid_affine_curve hP
  have hx2 : x ^ 2 = decompU s / decompV s := by
    rw [eq_div_iff hv]
    exact hx2v
  have hIs : IsSquare (decompU s / decompV s) := ⟨x, by rw [← hx2, sq]⟩
  have hspec := sqrtRatioI_spec (decompU s) (decompV s) hv
  have hfst : (sqrtRatioI (decompU s) (decompV s)).1 = true := hspec.1.mpr hIs
  have hsome := decompress_some_of s hfst
  refine ⟨_, hsome, ?_⟩
  have hr2 : (sqrtRatioI (decompU s) (decompV s)).2 ^ 2 = x ^ 2 := by
    rw [hspec.2 hfst, hx2]
  have hrneg : isNeg (sqrtRatioI (decompU s) (decompV s)).2 = false :=
    sqrtRatioI_isNeg _ _
  have hsign : decompSign s = isNeg x := decompSign_compress P
  have hXx : decompX s = x := by
    rw [decompX, hrneg, hsign]
    cases hnx : isNeg x
    · simp only [bne_self_eq_false, Bool.false_eq_true, if_false]
      exact sign_eq_inj hr2 (by rw [hrneg, hnx])
    · simp only [Bool.bne_true, Bool.not_false, if_true]
      have hx0 : x ≠ 0 := by
        intro hcon
        rw [hcon, isNeg_zero] at hnx
        exact Bool.false_ne_true hnx
      have hr0 : (sqrtRatioI (decompU s) (decompV s)).2 ≠ 0 := by
        intro hcon
        rw [hcon] at hr2
        exact (pow_ne_zero 2 hx0) hr2.symm
      apply sign_eq_inj
      · rw [neg_sq]
        exact hr2
      · rw [isNeg_neg_of_ne hr0, hrneg, hnx]
        rfl
  rw [compress_div]
  show xorHigh (toBytes (decompY s / 1)) (isNeg (decompX s / 1)) = s
  rw [div_one, div_one, hXx, hYs, ← compress_div]

/-- Closed witness for `claim2_round_trip` at the identity point. -/
theorem claim2_witness :
    Valid identity ∧ ∃ Q, decompress (compress identity) = some Q ∧
      compress Q = compress identity :=
  ⟨identity_valid, claim2_round_trip identity identity_valid⟩

/-! ### The affine Edwards group -/

/-- The affine twisted Edwards curve equation `-x² + y² = 1 + d·x²·y²`
(spec §3). -/
def onCurve (x y : F) : Prop :=
  -x ^ 2 + y ^ 2 = 1 + EDWARDS_D * x ^ 2 * y ^ 2

theorem valid_def (P : EdwardsPoint) :
    Valid P ↔ P.Z ≠ 0 ∧ onCurve (P.X / P.Z) (P.Y / P.Z) ∧
      P.X * P.Y = P.Z * P.T :=
  Iff.rfl

/-- Polynomial certificate: the twisted Edwards addition formulas stay on
the curve (numerator identity of the closure law, over any two points that
satisfy the curve equation). -/
theorem edwards_closure_cert (d x1 y1 x2 y2 : F) (h1 : -x1 ^ 2 + y1 ^ 2 = 1 + d * x1 ^ 2 * y1 ^ 2) (h2 : -x2 ^ 2 + y2 ^ 2 = 1 + d * x2 ^ 2 * y2 ^ 2) :
    -(x1*y2 + x2*y1) ^ 2 * (1 - d*x1*x2*y1*y2) ^ 2 + (y1*y2 + x1*x2) ^ 2 * (1 + d*x1*x2*y1*y2) ^ 2 =
      (1 + d*x1*x2*y1*y2) ^ 2 * (1 - d*x1*x2*y1*y2) ^ 2 + d * (x1*y2 + x2*y1) ^ 2 * (y1*y2 + x1*x2) ^ 2 := by
  linear_combination (y2^4 + (-4) * x2^2*y2^2 + (2) * x2^2*y2^4 + x2^4 + (-2) * x2^4*y2^2 + (-2) * d*x2^2*y2^2 + (-2) * d*x2^4*y2^4 - d*y1^2*x2^2*y2^4 + d*y1^2*x2^4*y2^2 + d*x1^2*x2^2*y2^4 - d*x1^2*x2^4*y2^2 - d^2*x2^4*y2^4 + d^2*y1^2*x2^4*y2^4 - d^2*x1^2*x2^4*y2^4 + d^3*x1^2*y1^2*x2^4*y2^4) * h1 + ((1 : F) + y2^2 - x2^2 + (2) * x2^2*y2^2 - y1^2*y2^2 + y1^2*x2^2 + (-2) * y1^2*x2^2*y2^2 + x1^2*y2^2 - x1^2*x2^2 + (2) * x1^2*x2^2*y2^2 + d*x2^2*y2^2 + (-2) * d*y1^2*x2^2*y2^2 + d*y1^4*x2^2*y2^2 + (2) * d*x1^2*x2^2*y2^2 + d*x1^4*x2^2*y2^2) * h2

/-- Polynomial certificate: cross-multiplied `x`-coordinate identity of the
associativity law for the affine Edwards addition. -/
theorem edwards_assocX_cert (d x1 y1 x2 y2 x3 y3 : F) (h1 : -x1 ^ 2 + y1 ^ 2 = 1 + d * x1 ^ 2 * y1 ^ 2) (h2 : -x2 ^ 2 + y2 ^ 2 = 1 + d * x2 ^ 2 * y2 ^ 2) (h3 : -x3 ^ 2 + y3 ^ 2 = 1 + d * x3 ^ 2 * y3 ^ 2) :
    ((x1*y2 + x2*y1)*y3*(1 - d*x1*x2*y1*y2) + x3*(y1*y2 + x1*x2)*(1 + d*x1*x2*y1*y2)) * ((1 + d*x2*x3*y2*y3)*(1 - d*x2*x3*y2*y3) + d*x1*y1*(x2*y3 + x3*y2)*(y2*y3 + x2*x3)) = (x1*(y2*y3 + x2*x3)*(1 + d*x2*x3*y2*y3) + (x2*y3 + x3*y2)*y1*(1 - d*x2*x3*y2*y3)) * ((1 + d*x1*x2*y1*y2)*(1 - d*x1*x2*y1*y2) + d*(x1*y2 + x2*y1)*(y1*y2 + x1*x2)*x3*y3) := by
  linear_combination (-d*y1*x2*y2^4*x3^2*y3 - d*y1*x2^2*y2^3*x3 - d*y1*x2^2*y2^3*x3^3 - d*y1*x2^3*y2^2*y3 + d*y1*x2^3*y2^2*y3^3 + d*y1*x2^4*y2*x3*y3^2 + d*x1*x2*y2^4*x3*y3^2 - d*x1*x2^2*y2^3*y3 + d*x1*x2^2*y2^3*y3^3 - d*x1*x2^3*y2^2*x3 - d*x1*x2^3*y2^2*x3^3 - d*x1*x2^4*y2*x3^2*y3 + d^2*y1*x2^3*y2^4*x3^2*y3 + d^2*y1*x2^4*y2^3*x3*y3^2 - d^2*x1*x2^3*y2^4*x3*y3^2 - d^2*x1*x2^4*y2^3*x3^2*y3) * h1 + (y1*y2*x3 - y1*y2*x3*y3^2 + y1*y2*x3^3 + y1*x2*y3 - y1*x2*y3^3 + y1*x2*x3^2*y3 - y1^3*y2*x3 + y1^3*y2*x3*y3^2 - y1^3*y2*x3^3 - y1^3*x2*y3 + y1^3*x2*y3^3 - y1^3*x2*x3^2*y3 + x1*y2*y3 - x1*y2*y3^3 + x1*y2*x3^2*y3 + x1*x2*x3 - x1*x2*x3*y3^2 + x1*x2*x3^3 - x1*y1^2*y2*y3 + x1*y1^2*y2*y3^3 - x1*y1^2*y2*x3^2*y3 - x1*y1^2*x2*x3 + x1*y1^2*x2*x3*y3^2 - x1*y1^2*x2*x3^3 + x1^2*y1*y2*x3 - x1^2*y1*y2*x3*y3^2 + x1^2*y1*y2*x3^3 + x1^2*y1*x2*y3 - x1^2*y1*x2*y3^3 + x1^2*y1*x2*x3^2*y3 + x1^3*y2*y3 - x1^3*y2*y3^3 + x1^3*y2*x3^2*y3 + x1^3*x2*x3 - x1^3*x2*x3*y3^2 + x1^3*x2*x3^3 + d*y1*y2*x3^3*y3^2 + d*y1*x2*x3^2*y3^3 - d*y1*x2*y2^2*x3^2*y3 - d*y1*x2^2*y2*x3*y3^2 - d*y1^3*y2*x3^3*y3^2 - d*y1^3*x2*x3^2*y3^3 + d*y1^3*x2*y2^2*x3^2*y3 + d*y1^3*x2^2*y2*x3*y3^2 + d*x1*y2*x3^2*y3^3 + d*x1*x2*x3^3*y3^2 + d*x1*x2*y2^2*x3*y3^2 + d*x1*x2^2*y2*x3^2*y3 - d*x1*y1^2*y2*x3^2*y3^3 - d*x1*y1^2*x2*x3^3*y3^2 - d*x1*y1^2*x2*y2^2*x3*y3^2 - d*x1*y1^2*x2^2*y2*x3^2*y3 + d*x1^2*y1*y2*x3^3*y3^2 + d*x1^2*y1*x2*x3^2*y3^3 - d*x1^2*y1*x2*y2^2*x3^2*y3 - d*x1^2*y1*x2^2*y2*x3*y3^2 + d*x1^3*y2*x3^2*y3^3 + d*x1^3*x2*x3^3*y3^2 + d*x1^3*x2*y2^2*x3*y3^2 + d*x1^3*x2^2*y2*x3^2*y3 + d^2*x1*y1^2*x2*y2^2*x3^3*y3^2 - d^2*x1*y1^2*x2^2*y2*x3^2*y3^3 - d^2*x1^2*y1*x2*y2^2*x3^2*y3^3 + d^2*x1^2*y1*x2^2*y2*x3^3*y3^2) * h2 + (-y1*y2*x3 + y1*y2^3*x3 - y1*x2*y3 + y1*x2*y2^2*y3 - y1*x2^2*y2*x3 - y1*x2^3*y3 + y1^3*y2*x3 - y1^3*y2^3*x3 + y1^3*x2*y3 - y1^3*x2*y2^2*y3 + y1^3*x2^2*y2*x3 + y1^3*x2^3*y3 - x1*y2*y3 + x1*y2^3*y3 - x1*x2*x3 + x1*x2*y2^2*x3 - x1*x2^2*y2*y3 - x1*x2^3*x3 + x1*y1^2*y2*y3 - x1*y1^2*y2^3*y3 + x1*y1^2*x2*x3 - x1*y1^2*x2*y2^2*x3 + x1*y1^2*x2^2*y2*y3 + x1*y1^2*x2^3*x3 - x1^2*y1*y2*x3 + x1^2*y1*y2^3*x3 - x1^2*y1*x2*y3 + x1^2*y1*x2*y2^2*y3 - x1^2*y1*x2^2*y2*x3 - x1^2*y1*x2^3*y3 - x1^3*y2*y3 + x1^3*y2^3*y3 - x1^3*x2*x3 + x1^3*x2*y2^2*x3 - x1^3*x2^2*y2*y3 - x1^3*x2^3*x3 - d*x1*y1^2*x2*y2^2*x3 + d*x1*y1^2*x2^2*y2*y3 + d*x1^2*y1*x2*y2^2*y3 - d*x1^2*y1*x2^2*y2*x3) * h3

/-- Polynomial certificate: cross-multiplied `y`-coordinate identity of the
associativity law for the affine Edwards addition. -/
theorem edwards_assocY_cert (d x1 y1 x2 y2 x3 y3 : F) (h1 : -x1 ^ 2 + y1 ^ 2 = 1 + d * x1 ^ 2 * y1 ^ 2) (h2 : -x2 ^ 2 + y2 ^ 2 = 1 + d * x2 ^ 2 * y2 ^ 2) (h3 : -x3 ^ 2 + y3 ^ 2 = 1 + d * x3 ^ 2 * y3 ^ 2) :
    ((y1*y2 + x1*x2)*y3*(1 + d*x1*x2*y1*y2) + (x1*y2 + x2*y1)*x3*(1 - d*x1*x2*y1*y2)) * ((1 + d*x2*x3*y2*y3)*(1 - d*x2*x3*y2*y3) - d*x1*y1*(x2*y3 + x3*y2)*(y2*y3 + x2*x3)) = (y1*(y2*y3 + x2*x3)*(1 + d*x2*x3*y2*y3) + x1*(x2*y3 + x3*y2)*(1 - d*x2*x3*y2*y3)) * ((1 + d*x1*x2*y1*y2)*(1 - d*x1*x2*y1*y2) - d*(x1*y2 + x2*y1)*(y1*y2 + x1*x2)*x3*y3) := by
  linear_combination (d*y1*x2*y2^4*x3*y3^2 - d*y1*x2^2*y2^3*y3 + d*y1*x2^2*y2^3*y3^3 - d*y1*x2^3*y2^2*x3 - d*y1*x2^3*y2^2*x3^3 - d*y1*x2^4*y2*x3^2*y3 - d*x1*x2*y2^4*x3^2*y3 - d*x1*x2^2*y2^3*x3 - d*x1*x2^2*y2^3*x3^3 - d*x1*x2^3*y2^2*y3 + d*x1*x2^3*y2^2*y3^3 + d*x1*x2^4*y2*x3*y3^2 - d^2*y1*x2^3*y2^4*x3*y3^2 - d^2*y1*x2^4*y2^3*x3^2*y3 + d^2*x1*x2^3*y2^4*x3^2*y3 + d^2*x1*x2^4*y2^3*x3*y3^2) * h1 + (y1*y2*y3 - y1*y2*y3^3 + y1*y2*x3^2*y3 + y1*x2*x3 - y1*x2*x3*y3^2 + y1*x2*x3^3 - y1^3*y2*y3 + y1^3*y2*y3^3 - y1^3*y2*x3^2*y3 - y1^3*x2*x3 + y1^3*x2*x3*y3^2 - y1^3*x2*x3^3 + x1*y2*x3 - x1*y2*x3*y3^2 + x1*y2*x3^3 + x1*x2*y3 - x1*x2*y3^3 + x1*x2*x3^2*y3 - x1*y1^2*y2*x3 + x1*y1^2*y2*x3*y3^2 - x1*y1^2*y2*x3^3 - x1*y1^2*x2*y3 + x1*y1^2*x2*y3^3 - x1*y1^2*x2*x3^2*y3 + x1^2*y1*y2*y3 - x1^2*y1*y2*y3^3 + x1^2*y1*y2*x3^2*y3 + x1^2*y1*x2*x3 - x1^2*y1*x2*x3*y3^2 + x1^2*y1*x2*x3^3 + x1^3*y2*x3 - x1^3*y2*x3*y3^2 + x1^3*y2*x3^3 + x1^3*x2*y3 - x1^3*x2*y3^3 + x1^3*x2*x3^2*y3 + d*y1*y2*x3^2*y3^3 + d*y1*x2*x3^3*y3^2 + d*y1*x2*y2^2*x3*y3^2 + d*y1*x2^2*y2*x3^2*y3 - d*y1^3*y2*x3^2*y3^3 - d*y1^3*x2*x3^3*y3^2 - d*y1^3*x2*y2^2*x3*y3^2 - d*y1^3*x2^2*y2*x3^2*y3 + d*x1*y2*x3^3*y3^2 + d*x1*x2*x3^2*y3^3 - d*x1*x2*y2^2*x3^2*y3 - d*x1*x2^2*y2*x3*y3^2 - d*x1*y1^2*y2*x3^3*y3^2 - d*x1*y1^2*x2*x3^2*y3^3 + d*x1*y1^2*x2*y2^2*x3^2*y3 + d*x1*y1^2*x2^2*y2*x3*y3^2 + d*x1^2*y1*y2*x3^2*y3^3 + d*x1^2*y1*x2*x3^3*y3^2 + d*x1^2*y1*x2*y2^2*x3*y3^2 + d*x1^2*y1*x2^2*y2*x3^2*y3 + d*x1^3*y2*x3^3*y3^2 + d*x1^3*x2*x3^2*y3^3 - d*x1^3*x2*y2^2*x3^2*y3 - d*x1^3*x2^2*y2*x3*y3^2 + d^2*x1*y1^2*x2*y2^2*x3^2*y3^3 - d^2*x1*y1^2*x2^2*y2*x3^3*y3^2 - d^2*x1^2*y1*x2*y2^2*x3^3*y3^2 + d^2*x1^2*y1*x2^2*y2*x3^2*y3^3) * h2 + (-y1*y2*y3 + y1*y2^3*y3 - y1*x2*x3 + y1*x2*y2^2*x3 - y1*x2^2*y2*y3 - y1*x2^3*x3 + y1^3*y2*y3 - y1^3*y2^3*y3 + y1^3*x2*x3 - y1^3*x2*y2^2*x3 + y1^3*x2^2*y2*y3 + y1^3*x2^3*x3 - x1*y2*x3 + x1*y2^3*x3 - x1*x2*y3 + x1*x2*y2^2*y3 - x1*x2^2*y2*x3 - x1*x2^3*y3 + x1*y1^2*y2*x3 - x1*y1^2*y2^3*x3 + x1*y1^2*x2*y3 - x1*y1^2*x2*y2^2*y3 + x1*y1^2*x2^2*y2*x3 + x1*y1^2*x2^3*y3 - x1^2*y1*y2*y3 + x1^2*y1*y2^3*y3 - x1^2*y1*x2*x3 + x1^2*y1*x2*y2^2*x3 - x1^2*y1*x2^2*y2*y3 - x1^2*y1*x2^3*x3 - x1^3*y2*x3 + x1^3*y2^3*x3 - x1^3*x2*y3 + x1^3*x2*y2^2*y3 - x1^3*x2^2*y2*x3 - x1^3*x2^3*y3 - d*x1*y1^2*x2*y2^2*y3 + d*x1*y1^2*x2^2*y2*x3 + d*x1^2*y1*x2*y2^2*x3 - d*x1^2*y1*x2^2*y2*y3) * h3

/-- The Bernstein-Lange completeness key identity, transported to the
`a = -1` twisted curve: if both points satisfy the curve equation and
`d*x1*x2*y1*y2 = e` with `e ^ 2 = 1` and `j ^ 2 = -1`, then `d` times a
square equals a square, in two sign variants. -/
theorem edwards_key_cert (d x1 y1 x2 y2 e j : F) (h1 : -x1 ^ 2 + y1 ^ 2 = 1 + d * x1 ^ 2 * y1 ^ 2) (h2 : -x2 ^ 2 + y2 ^ 2 = 1 + d * x2 ^ 2 * y2 ^ 2)
    (he : e ^ 2 = 1) (hj : j ^ 2 = -1)
    (ht : d * x1 * x2 * y1 * y2 = e) :
    d * x1 ^ 2 * y1 ^ 2 * (j * x2 + y2) ^ 2 = (j * x1 + e * y1) ^ 2 ∧
    d * x1 ^ 2 * y1 ^ 2 * (j * x2 - y2) ^ 2 = (j * x1 - e * y1) ^ 2 := by
  constructor
  · linear_combination ((-1 : F)) * h1 + (d*x1^2*y1^2) * h2 + ((1 : F) - y1^2) * he + (-x1^2 + d*x1^2*y1^2*x2^2) * hj + (e + (2) * x1*y1*j + d*x1*y1*x2*y2) * ht
  · linear_combination ((-1 : F)) * h1 + (d*x1^2*y1^2) * h2 + ((1 : F) - y1^2) * he + (-x1^2 + d*x1^2*y1^2*x2^2) * hj + (e + (-2) * x1*y1*j + d*x1*y1*x2*y2) * ht


/-- Completeness of the Edwards addition law (Bernstein-Lange): because `d`
is not a square, `d*x1*x2*y1*y2` can never be a square root of `1`. -/
theorem denom_ne (x1 y1 x2 y2 : F) (h1 : onCurve x1 y1) (h2 : onCurve x2 y2)
    (e : F) (he : e ^ 2 = 1) (ht : EDWARDS_D * x1 * x2 * y1 * y2 = e) :
    False := by
  have hene : e ≠ 0 := by
    intro h0
    rw [h0] at he
    simp at he
  have hprod : EDWARDS_D * x1 * x2 * y1 * y2 ≠ 0 := by rw [ht]; exact hene
  have hx1 : x1 ≠ 0 := by intro h0; apply hprod; rw [h0]; ring
  have hy1 : y1 ≠ 0 := by intro h0; apply hprod; rw [h0]; ring
  have hy2 : y2 ≠ 0 := by intro h0; apply hprod; rw [h0]; ring
  obtain ⟨k1, k2⟩ := edwards_key_cert EDWARDS_D x1 y1 x2 y2 e SQRT_M1 h1 h2
    he i_sq ht
  by_cases hz : SQRT_M1 * x2 + y2 = 0
  · have hz2 : SQRT_M1 * x2 - y2 ≠ 0 := by
      intro h0
      apply hy2
      have h2y : 2 * y2 = 0 := by linear_combination hz - h0
      calc y2 = 2⁻¹ * (2 * y2) := by
              rw [inv_mul_cancel_left₀ F_two_ne_zero]
        _ = 0 := by rw [h2y, mul_zero]
    apply edwards_d_nonsquare
    refine ⟨(SQRT_M1 * x1 - e * y1) / (x1 * y1 * (SQRT_M1 * x2 - y2)), ?_⟩
    rw [div_mul_div_comm, eq_div_iff
      (mul_ne_zero (mul_ne_zero (mul_ne_zero hx1 hy1) hz2)
        (mul_ne_zero (mul_ne_zero hx1 hy1) hz2))]
    linear_combination k2
  · apply edwards_d_nonsquare
    refine ⟨(SQRT_M1 * x1 + e * y1) / (x1 * y1 * (SQRT_M1 * x2 + y2)), ?_⟩
    rw [div_mul_div_comm, eq_div_iff
      (mul_ne_zero (mul_ne_zero (mul_ne_zero hx1 hy1) hz)
        (mul_ne_zero (mul_ne_zero hx1 hy1) hz))]
    linear_combination k1

/-- The `+` denominator of the affine addition law never vanishes. -/
theorem onCurve_denom_add {x1 y1 x2 y2 : F}
    (h1 : onCurve x1 y1) (h2 : onCurve x2 y2) :
    1 + EDWARDS_D * x1 * x2 * y1 * y2 ≠ 0 := by
  intro h0
  exact denom_ne x1 y1 x2 y2 h1 h2 (-1) (by ring) (by linear_combination h0)

/-- The `-` denominator of the affine addition law never vanishes. -/
theorem onCurve_denom_sub {x1 y1 x2 y2 : F}
    (h1 : onCurve x1 y1) (h2 : onCurve x2 y2) :
    1 - EDWARDS_D * x1 * x2 * y1 * y2 ≠ 0 := by
  intro h0
  exact denom_ne x1 y1 x2 y2 h1 h2 1 (by ring) (by linear_combination -h0)

/-- The `x`-coordinate of the affine Edwards addition law (spec §4.2). -/
def affAddX (x1 y1 x2 y2 : F) : F :=
  (x1 * y2 + x2 * y1) / (1 + EDWARDS_D * x1 * x2 * y1 * y2)

/-- The `y`-coordinate of the affine Edwards addition law (spec §4.2). -/
def affAddY (x1 y1 x2 y2 : F) : F :=
  (y1 * y2 + x1 * x2) / (1 - EDWARDS_D * x1 * x2 * y1 * y2)

/-- Closure: the affine addition law stays on the curve. -/
theorem onCurve_affAdd {x1 y1 x2 y2 : F}
    (h1 : onCurve x1 y1) (h2 : onCurve x2 y2) :
    onCurve (affAddX x1 y1 x2 y2) (affAddY x1 y1 x2 y2) := by
  have hDp := onCurve_denom_add h1 h2
  have hDm := onCurve_denom_sub h1 h2
  rw [onCurve, affAddX, affAddY, div_pow, div_pow]
  field_simp
  linear_combination edwards_closure_cert EDWARDS_D x1 y1 x2 y2 h1 h2

theorem onCurve_neg {x y : F} (h : onCurve x y) : onCurve (-x) y := by
  rw [onCurve] at h ⊢
  linear_combination h

theorem onCurve_zero_one : onCurve 0 1 := by rw [onCurve]; ring

/-- A point of the affine Edwards curve: coordinates plus curve membership. -/
structure AffinePoint where
  x : F
  y : F
  hc : onCurve x y

theorem affinePoint_ext : ∀ {A B : AffinePoint}, A.x = B.x → A.y = B.y → A = B
  | ⟨_, _, _⟩, ⟨_, _, _⟩, rfl, rfl => rfl

instance : Zero AffinePoint := ⟨⟨0, 1, onCurve_zero_one⟩⟩

instance : Add AffinePoint :=
  ⟨fun A B => ⟨affAddX A.x A.y B.x B.y, affAddY A.x A.y B.x B.y,
    onCurve_affAdd A.hc B.hc⟩⟩

instance : Neg AffinePoint := ⟨fun A => ⟨-A.x, A.y, onCurve_neg A.hc⟩⟩

theorem affine_zero_x : (0 : AffinePoint).x = 0 := rfl

theorem affine_zero_y : (0 : AffinePoint).y = 1 := rfl

theorem affine_add_x (A B : AffinePoint) :
    (A + B).x = affAddX A.x A.y B.x B.y := rfl

theorem affine_add_y (A B : AffinePoint) :
    (A + B).y = affAddY A.x A.y B.x B.y := rfl

theorem affine_neg_x (A : AffinePoint) : (-A).x = -A.x := rfl

theorem affine_neg_y (A : AffinePoint) : (-A).y = A.y := rfl

theorem aff_add_zero (A : AffinePoint) : A + 0 = A := by
  refine affinePoint_ext ?_ ?_
  · rw [affine_add_x, affine_zero_x, affine_zero_y, affAddX]
    rw [show A.x * 1 + 0 * A.y = A.x from by ring,
      show 1 + EDWARDS_D * A.x * 0 * A.y * 1 = 1 from by ring, div_one]
  · rw [affine_add_y, affine_zero_x, affine_zero_y, affAddY]
    rw [show A.y * 1 + A.x * 0 = A.y from by ring,
      show 1 - EDWARDS_D * A.x * 0 * A.y * 1 = 1 from by ring, div_one]

theorem aff_add_comm (A B : AffinePoint) : A + B = B + A := by
  refine affinePoint_ext ?_ ?_
  · rw [affine_add_x, affine_add_x, affAddX, affAddX]
    ring_nf
  · rw [affine_add_y, affine_add_y, affAddY, affAddY]
    ring_nf

theorem aff_neg_add_cancel (A : AffinePoint) : -A + A = 0 := by
  have hDm : 1 - EDWARDS_D * (-A.x) * A.x * A.y * A.y ≠ 0 :=
    onCurve_denom_sub (onCurve_neg A.hc) A.hc
  refine affinePoint_ext ?_ ?_
  · rw [affine_add_x, affine_neg_x, affine_neg_y, affine_zero_x, affAddX]
    rw [show -A.x * A.y + A.x * A.y = 0 from by ring, zero_div]
  · rw [affine_add_y, affine_neg_x, affine_neg_y, affine_zero_y, affAddY]
    have hA : -A.x ^ 2 + A.y ^ 2 = 1 + EDWARDS_D * A.x ^ 2 * A.y ^ 2 := A.hc
    rw [show A.y * A.y + -A.x * A.x = 1 - EDWARDS_D * (-A.x) * A.x * A.y * A.y
        from by linear_combination hA]
    exact div_self hDm

theorem div_div_cancel_common (A B C : F) (hC : C ≠ 0) :
    (A / C) / (B / C) = A / B := by
  by_cases hB : B = 0
  · rw [hB, zero_div, div_zero, div_zero]
  · field_simp

/-- Pushing a quotient representation of the first point through `affAddX`. -/
theorem affAddX_div_left (a b c e u v : F) (hb : b ≠ 0) (he : e ≠ 0) :
    affAddX (a / b) (c / e) u v =
      (a * v * e + u * c * b) / (b * e + EDWARDS_D * a * c * u * v) := by
  rw [affAddX,
    show a / b * v + u * (c / e) = (a * v * e + u * c * b) / (b * e) from by
      rw [eq_div_iff (mul_ne_zero hb he)]; field_simp; try ring
      try simp
    ,
    show 1 + EDWARDS_D * (a / b) * u * (c / e) * v =
        (b * e + EDWARDS_D * a * c * u * v) / (b * e) from by
      rw [eq_div_iff (mul_ne_zero hb he)]; field_simp; try ring
      try simp
    ]
  exact div_div_cancel_common _ _ _ (mul_ne_zero hb he)

/-- Pushing a quotient representation of the second point through `affAddX`. -/
theorem affAddX_div_right (u v a b c e : F) (hb : b ≠ 0) (he : e ≠ 0) :
    affAddX u v (a / b) (c / e) =
      (u * c * b + a * v * e) / (b * e + EDWARDS_D * u * a * v * c) := by
  rw [affAddX,
    show u * (c / e) + a / b * v = (u * c * b + a * v * e) / (b * e) from by
      rw [eq_div_iff (mul_ne_zero hb he)]; field_simp; try ring
      try simp
    ,
    show 1 + EDWARDS_D * u * (a / b) * v * (c / e) =
        (b * e + EDWARDS_D * u * a * v * c) / (b * e) from by
      rw [eq_div_iff (mul_ne_zero hb he)]; field_simp; try ring
      try simp
    ]
  exact div_div_cancel_common _ _ _ (mul_ne_zero hb he)

/-- Pushing a quotient representation of the first point through `affAddY`. -/
theorem affAddY_div_left (a b c e u v : F) (hb : b ≠ 0) (he : e ≠ 0) :
    affAddY (a / b) (c / e) u v =
      (c * v * b + a * u * e) / (b * e - EDWARDS_D * a * c * u * v) := by
  rw [affAddY,
    show c / e * v + a / b * u = (c * v * b + a * u * e) / (b * e) from by
      rw [eq_div_iff (mul_ne_zero hb he)]; field_simp; try ring
      try simp
    ,
    show 1 - EDWARDS_D * (a / b) * u * (c / e) * v =
        (b * e - EDWARDS_D * a * c * u * v) / (b * e) from by
      rw [eq_div_iff (mul_ne_zero hb he)]; field_simp; try ring
      try simp
    ]
  exact div_div_cancel_common _ _ _ (mul_ne_zero hb he)

/-- Pushing a quotient representation of the second point through `affAddY`. -/
theorem affAddY_div_right (u v a b c e : F) (hb : b ≠ 0) (he : e ≠ 0) :
    affAddY u v (a / b) (c / e) =
      (v * c * b + u * a * e) / (b * e - EDWARDS_D * u * a * v * c) := by
  rw [affAddY,
    show v * (c / e) + u * (a / b) = (v * c * b + u * a * e) / (b * e) from by
      rw [eq_div_iff (mul_ne_zero hb he)]; field_simp; try ring
      try simp
    ,
    show 1 - EDWARDS_D * u * (a / b) * v * (c / e) =
        (b * e - EDWARDS_D * u * a * v * c) / (b * e) from by
      rw [eq_div_iff (mul_ne_zero hb he)]; field_simp; try ring
      try simp
    ]
  exact div_div_cancel_common _ _ _ (mul_ne_zero hb he)

/-- Associativity of the affine Edwards addition law, coordinatewise. -/
theorem aff_assoc_aux {x1 y1 x2 y2 x3 y3 : F}
    (h1 : onCurve x1 y1) (h2 : onCurve x2 y2) (h3 : onCurve x3 y3) :
    affAddX (affAddX x1 y1 x2 y2) (affAddY x1 y1 x2 y2) x3 y3 =
      affAddX x1 y1 (affAddX x2 y2 x3 y3) (affAddY x2 y2 x3 y3) ∧
    affAddY (affAddX x1 y1 x2 y2) (affAddY x1 y1 x2 y2) x3 y3 =
      affAddY x1 y1 (affAddX x2 y2 x3 y3) (affAddY x2 y2 x3 y3) := by
  have hDp12 := onCurve_denom_add h1 h2
  have hDm12 := onCurve_denom_sub h1 h2
  have hDp23 := onCurve_denom_add h2 h3
  have hDm23 := onCurve_denom_sub h2 h3
  have h12 := onCurve_affAdd h1 h2
  have h23 := onCurve_affAdd h2 h3
  have hDpL : (1 + EDWARDS_D * x1 * x2 * y1 * y2) *
      (1 - EDWARDS_D * x1 * x2 * y1 * y2) +
      EDWARDS_D * (x1 * y2 + x2 * y1) * (y1 * y2 + x1 * x2) * x3 * y3 ≠ 0 := by
    intro h0
    apply onCurve_denom_add h12 h3
    rw [affAddX, affAddY,
      show 1 + EDWARDS_D * ((x1 * y2 + x2 * y1) /
          (1 + EDWARDS_D * x1 * x2 * y1 * y2)) * x3 *
          ((y1 * y2 + x1 * x2) / (1 - EDWARDS_D * x1 * x2 * y1 * y2)) * y3 =
        ((1 + EDWARDS_D * x1 * x2 * y1 * y2) *
          (1 - EDWARDS_D * x1 * x2 * y1 * y2) +
          EDWARDS_D * (x1 * y2 + x2 * y1) * (y1 * y2 + x1 * x2) * x3 * y3) /
        ((1 + EDWARDS_D * x1 * x2 * y1 * y2) *
          (1 - EDWARDS_D * x1 * x2 * y1 * y2)) from by
        rw [eq_div_iff (mul_ne_zero hDp12 hDm12)]; field_simp; try ring
        try simp
      ,
      h0, zero_div]
  have hDmL : (1 + EDWARDS_D * x1 * x2 * y1 * y2) *
      (1 - EDWARDS_D * x1 * x2 * y1 * y2) -
      EDWARDS_D * (x1 * y2 + x2 * y1) * (y1 * y2 + x1 * x2) * x3 * y3 ≠ 0 := by
    intro h0
    apply onCurve_denom_sub h12 h3
    rw [affAddX, affAddY,
      show 1 - EDWARDS_D * ((x1 * y2 + x2 * y1) /
          (1 + EDWARDS_D * x1 * x2 * y1 * y2)) * x3 *
          ((y1 * y2 + x1 * x2) / (1 - EDWARDS_D * x1 * x2 * y1 * y2)) * y3 =
        ((1 + EDWARDS_D * x1 * x2 * y1 * y2) *
          (1 - EDWARDS_D * x1 * x2 * y1 * y2) -
          EDWARDS_D * (x1 * y2 + x2 * y1) * (y1 * y2 + x1 * x2) * x3 * y3) /
        ((1 + EDWARDS_D * x1 * x2 * y1 * y2) *
          (1 - EDWARDS_D * x1 * x2 * y1 * y2)) from by
        rw [eq_div_iff (mul_ne_zero hDp12 hDm12)]; field_simp; try ring
        try simp
      ,
      h0, zero_div]
  have hDpR : (1 + EDWARDS_D * x2 * x3 * y2 * y3) *
      (1 - EDWARDS_D * x2 * x3 * y2 * y3) +
      EDWARDS_D * x1 * (x2 * y3 + x3 * y2) * y1 * (y2 * y3 + x2 * x3) ≠ 0 := by
    intro h0
    apply onCurve_denom_add h1 h23
    rw [affAddX, affAddY,
      show 1 + EDWARDS_D * x1 * ((x2 * y3 + x3 * y2) /
          (1 + EDWARDS_D * x2 * x3 * y2 * y3)) * y1 *
          ((y2 * y3 + x2 * x3) / (1 - EDWARDS_D * x2 * x3 * y2 * y3)) =
        ((1 + EDWARDS_D * x2 * x3 * y2 * y3) *
          (1 - EDWARDS_D * x2 * x3 * y2 * y3) +
          EDWARDS_D * x1 * (x2 * y3 + x3 * y2) * y1 * (y2 * y3 + x2 * x3)) /
        ((1 + EDWARDS_D * x2 * x3 * y2 * y3) *
          (1 - EDWARDS_D * x2 * x3 * y2 * y3)) from by
        rw [eq_div_iff (mul_ne_zero hDp23 hDm23)]; field_simp; try ring
        try simp
      ,
      h0, zero_div]
  have hDmR : (1 + EDWARDS_D * x2 * x3 * y2 * y3) *
      (1 - EDWARDS_D * x2 * x3 * y2 * y3) -
      EDWARDS_D * x1 * (x2 * y3 + x3 * y2) * y1 * (y2 * y3 + x2 * x3) ≠ 0 := by
    intro h0
    apply onCurve_denom_sub h1 h23
    rw [affAddX, affAddY,
      show 1 - EDWARDS_D * x1 * ((x2 * y3 + x3 * y2) /
          (1 + EDWARDS_D * x2 * x3 * y2 * y3)) * y1 *
          ((y2 * y3 + x2 * x3) / (1 - EDWARDS_D * x2 * x3 * y2 * y3)) =
        ((1 + EDWARDS_D * x2 * x3 * y2 * y3) *
          (1 - EDWARDS_D * x2 * x3 * y2 * y3) -
          EDWARDS_D * x1 * (x2 * y3 + x3 * y2) * y1 * (y2 * y3 + x2 * x3)) /
        ((1 + EDWARDS_D * x2 * x3 * y2 * y3) *
          (1 - EDWARDS_D * x2 * x3 * y2 * y3)) from by
        rw [eq_div_iff (mul_ne_zero hDp23 hDm23)]; field_simp; try ring
        try simp
      ,
      h0, zero_div]
  constructor
  · rw [show affAddX x1 y1 x2 y2 = (x1 * y2 + x2 * y1) /
        (1 + EDWARDS_D * x1 * x2 * y1 * y2) from rfl,
      show affAddY x1 y1 x2 y2 = (y1 * y2 + x1 * x2) /
        (1 - EDWARDS_D * x1 * x2 * y1 * y2) from rfl,
      show affAddX x2 y2 x3 y3 = (x2 * y3 + x3 * y2) /
        (1 + EDWARDS_D * x2 * x3 * y2 * y3) from rfl,
      show affAddY x2 y2 x3 y3 = (y2 * y3 + x2 * x3) /
        (1 - EDWARDS_D * x2 * x3 * y2 * y3) from rfl,
      affAddX_div_left _ _ _ _ _ _ hDp12 hDm12,
      affAddX_div_right _ _ _ _ _ _ hDp23 hDm23,
      div_eq_div_iff hDpL hDpR]
    linear_combination edwards_assocX_cert EDWARDS_D x1 y1 x2 y2 x3 y3 h1 h2 h3
  · rw [show affAddX x1 y1 x2 y2 = (x1 * y2 + x2 * y1) /
        (1 + EDWARDS_D * x1 * x2 * y1 * y2) from rfl,
      show affAddY x1 y1 x2 y2 = (y1 * y2 + x1 * x2) /
        (1 - EDWARDS_D * x1 * x2 * y1 * y2) from rfl,
      show affAddX x2 y2 x3 y3 = (x2 * y3 + x3 * y2) /
        (1 + EDWARDS_D * x2 * x3 * y2 * y3) from rfl,
      show affAddY x2 y2 x3 y3 = (y2 * y3 + x2 * x3) /
        (1 - EDWARDS_D * x2 * x3 * y2 * y3) from rfl,
      affAddY_div_left _ _ _ _ _ _ hDp12 hDm12,
      affAddY_div_right _ _ _ _ _ _ hDp23 hDm23,
      div_eq_div_iff hDmL hDmR]
    linear_combination edwards_assocY_cert EDWARDS_D x1 y1 x2 y2 x3 y3 h1 h2 h3

theorem aff_add_assoc (A B C : AffinePoint) : A + B + C = A + (B + C) :=
  affinePoint_ext (aff_assoc_aux A.hc B.hc C.hc).1 (aff_assoc_aux A.hc B.hc C.hc).2

/-- The affine Edwards curve is an abelian group under the complete
addition law. -/
instance : AddCommGroup AffinePoint where
  add_assoc := aff_add_assoc
  zero_add A := by rw [aff_add_comm]; exact aff_add_zero A
  add_zero := aff_add_zero
  neg_add_cancel := aff_neg_add_cancel
  add_comm := aff_add_comm
  nsmul := nsmulRec
  zsmul := zsmulRec

/-! ### Correspondence between the extended-coordinate code and the affine
group -/

/-- `P` is an extended-coordinate representative of the affine point `A`. -/
def Reps (P : EdwardsPoint) (A : AffinePoint) : Prop :=
  Valid P ∧ P.X / P.Z = A.x ∧ P.Y / P.Z = A.y

theorem reps_identity : Reps identity 0 := by
  refine ⟨identity_valid, ?_, ?_⟩
  · rw [show identity.X = 0 from rfl, show identity.Z = 1 from rfl,
      affine_zero_x, zero_div]
  · rw [show identity.Y = 1 from rfl, show identity.Z = 1 from rfl,
      affine_zero_y, div_one]

/-- Any valid point represents the affine point formed by its coordinates. -/
theorem reps_self {P : EdwardsPoint} (hP : Valid P) :
    Reps P ⟨P.X / P.Z, P.Y / P.Z, hP.2.1⟩ :=
  ⟨hP, rfl, rfl⟩

theorem reps_ctEq {P Q : EdwardsPoint} {A B : AffinePoint}
    (hP : Reps P A) (hQ : Reps Q B) (hAB : A = B) : ctEq P Q = true := by
  rw [ctEq_iff_affine P Q hP.1.1 hQ.1.1]
  subst hAB
  exact ⟨hP.2.1.trans hQ.2.1.symm, hP.2.2.trans hQ.2.2.symm⟩

/-- The workhorse: a completed point whose four coordinates are the affine
addition numerators and denominators, up to two nonzero scalings, is sent by
`to_extended` to a valid representative of the affine sum. -/
theorem completed_spec (c : CompletedPoint) (x1 y1 x2 y2 lam mu : F)
    (h1 : onCurve x1 y1) (h2 : onCurve x2 y2)
    (hlam : lam ≠ 0) (hmu : mu ≠ 0)
    (hX : c.X = lam * (x1 * y2 + x2 * y1))
    (hZ : c.Z = lam * (1 + EDWARDS_D * x1 * x2 * y1 * y2))
    (hY : c.Y = mu * (y1 * y2 + x1 * x2))
    (hT : c.T = mu * (1 - EDWARDS_D * x1 * x2 * y1 * y2)) :
    Valid (toExtended c) ∧
      (toExtended c).X / (toExtended c).Z = affAddX x1 y1 x2 y2 ∧
      (toExtended c).Y / (toExtended c).Z = affAddY x1 y1 x2 y2 := by
  have hDp := onCurve_denom_add h1 h2
  have hDm := onCurve_denom_sub h1 h2
  have hZne : c.Z ≠ 0 := by rw [hZ]; exact mul_ne_zero hlam hDp
  have hTne : c.T ≠ 0 := by rw [hT]; exact mul_ne_zero hmu hDm
  have hRZ : (toExtended c).Z ≠ 0 := mul_ne_zero hZne hTne
  have hx : (toExtended c).X / (toExtended c).Z = affAddX x1 y1 x2 y2 := by
    show c.X * c.T / (c.Z * c.T) = _
    rw [mul_div_mul_right _ _ hTne, hX, hZ, affAddX,
      mul_div_mul_left _ _ hlam]
  have hy : (toExtended c).Y / (toExtended c).Z = affAddY x1 y1 x2 y2 := by
    show c.Y * c.Z / (c.Z * c.T) = _
    rw [show c.Y * c.Z / (c.Z * c.T) = c.Y * c.Z / (c.T * c.Z) from by
        rw [mul_comm c.Z c.T],
      mul_div_mul_right _ _ hZne, hY, hT, affAddY,
      mul_div_mul_left _ _ hmu]
  refine ⟨⟨hRZ, ?_, ?_⟩, hx, hy⟩
  · rw [hx, hy]
    exact onCurve_affAdd h1 h2
  · show c.X * c.T * (c.Y * c.Z) = c.Z * c.T * (c.X * c.Y)
    ring

/-- The shape of every `ProjectiveNielsPoint` the algorithms feed to the
addition core: the Niels data of an affine point `(x, y)`, scaled by `w`. -/
def pnForm (x y w : F) : ProjectiveNielsPoint :=
  ⟨(y + x) * w, (y - x) * w, w, x * y * EDWARDS_D2 * w⟩

/-- The shape of every `AffineNielsPoint` the algorithms feed to the mixed
addition core: the Niels data of an affine point `(x, y)`. -/
def anForm (x y : F) : AffineNielsPoint :=
  ⟨y + x, y - x, x * y * EDWARDS_D2⟩

theorem pnPoint_ext :
    ∀ {m n : ProjectiveNielsPoint}, m.Y_plus_X = n.Y_plus_X →
      m.Y_minus_X = n.Y_minus_X → m.Z = n.Z → m.T2d = n.T2d → m = n
  | ⟨_, _, _, _⟩, ⟨_, _, _, _⟩, rfl, rfl, rfl, rfl => rfl

theorem anPoint_ext :
    ∀ {m n : AffineNielsPoint}, m.y_plus_x = n.y_plus_x →
      m.y_minus_x = n.y_minus_x → m.xy2d = n.xy2d → m = n
  | ⟨_, _, _⟩, ⟨_, _, _⟩, rfl, rfl, rfl => rfl

theorem pnNeg_form (x y w : F) : pnNeg (pnForm x y w) = pnForm (-x) y w :=
  pnPoint_ext
    (show (y - x) * w = (y + -x) * w from by ring)
    (show (y + x) * w = (y - -x) * w from by ring)
    rfl
    (show -(x * y * EDWARDS_D2 * w) = -x * y * EDWARDS_D2 * w from by ring)

theorem anNeg_form (x y : F) : anNeg (anForm x y) = anForm (-x) y :=
  anPoint_ext
    (show y - x = y + -x from by ring)
    (show y + x = y - -x from by ring)
    (show -(x * y * EDWARDS_D2) = -x * y * EDWARDS_D2 from by ring)

theorem toProjectiveNiels_form {Q : EdwardsPoint} (hQ : Valid Q) :
    toProjectiveNiels Q = pnForm (Q.X / Q.Z) (Q.Y / Q.Z) Q.Z := by
  obtain ⟨hZ, _, hsegre⟩ := hQ
  refine pnPoint_ext ?_ ?_ rfl ?_
  · show Q.Y + Q.X = (Q.Y / Q.Z + Q.X / Q.Z) * Q.Z
    field_simp
  · show Q.Y - Q.X = (Q.Y / Q.Z - Q.X / Q.Z) * Q.Z
    field_simp
  · show Q.T * EDWARDS_D2 = Q.X / Q.Z * (Q.Y / Q.Z) * EDWARDS_D2 * Q.Z
    rw [div_mul_div_comm, div_mul_eq_mul_div, div_mul_eq_mul_div,
      eq_comm, div_eq_iff (mul_ne_zero hZ hZ)]
    linear_combination Q.Z * EDWARDS_D2 * hsegre

theorem toAffineNiels_form (Q : EdwardsPoint) :
    toAffineNiels Q = anForm (Q.X / Q.Z) (Q.Y / Q.Z) := by
  rw [toAffineNiels, anForm, invert_eq_inv, div_eq_mul_inv, div_eq_mul_inv]

/-- Adding a `pnForm` Niels operand lands on the affine sum. -/
theorem addPN_reps {P : EdwardsPoint} {A : AffinePoint} (hPA : Reps P A)
    {B : AffinePoint} (w : F) (hw : w ≠ 0)
    {n : ProjectiveNielsPoint} (hn : n = pnForm B.x B.y w) :
    Reps (toExtended (addPN P n)) (A + B) := by
  obtain ⟨⟨hZ, hcurve, hsegre⟩, hx, hy⟩ := hPA
  subst hn
  have hA : onCurve A.x A.y := A.hc
  have hB : onCurve B.x B.y := B.hc
  have hlam : 2 * (P.Z * w) ≠ 0 :=
    mul_ne_zero F_two_ne_zero (mul_ne_zero hZ hw)
  obtain ⟨hval, hcx, hcy⟩ :=
    completed_spec (addPN P (pnForm B.x B.y w)) A.x A.y B.x B.y
      (2 * (P.Z * w)) (2 * (P.Z * w)) hA hB hlam hlam
      (by
        show (P.Y + P.X) * ((B.y + B.x) * w) - (P.Y - P.X) * ((B.y - B.x) * w)
          = 2 * (P.Z * w) * (A.x * B.y + B.x * A.y)
        rw [← hx, ← hy]
        field_simp
        ring)
      (by
        show 2 * (P.Z * w) + P.T * (B.x * B.y * EDWARDS_D2 * w)
          = 2 * (P.Z * w) * (1 + EDWARDS_D * A.x * B.x * A.y * B.y)
        rw [← hx, ← hy, EDWARDS_D2_spec]
        field_simp
        linear_combination (-2) * EDWARDS_D * B.x * B.y * w * P.Z * hsegre)
      (by
        show (P.Y + P.X) * ((B.y + B.x) * w) + (P.Y - P.X) * ((B.y - B.x) * w)
          = 2 * (P.Z * w) * (A.y * B.y + A.x * B.x)
        rw [← hx, ← hy]
        field_simp
        ring)
      (by
        show 2 * (P.Z * w) - P.T * (B.x * B.y * EDWARDS_D2 * w)
          = 2 * (P.Z * w) * (1 - EDWARDS_D * A.x * B.x * A.y * B.y)
        rw [← hx, ← hy, EDWARDS_D2_spec]
        field_simp
        linear_combination 2 * EDWARDS_D * B.x * B.y * w * P.Z * hsegre)
  exact ⟨hval, hcx, hcy⟩

/-- Adding an `anForm` Niels operand lands on the affine sum. -/
theorem addAN_reps {P : EdwardsPoint} {A : AffinePoint} (hPA : Reps P A)
    {B : AffinePoint} {n : AffineNielsPoint} (hn : n = anForm B.x B.y) :
    Reps (toExtended (addAN P n)) (A + B) := by
  obtain ⟨⟨hZ, hcurve, hsegre⟩, hx, hy⟩ := hPA
  subst hn
  have hA : onCurve A.x A.y := A.hc
  have hB : onCurve B.x B.y := B.hc
  have hlam : 2 * P.Z ≠ 0 := mul_ne_zero F_two_ne_zero hZ
  obtain ⟨hval, hcx, hcy⟩ :=
    completed_spec (addAN P (anForm B.x B.y)) A.x A.y B.x B.y
      (2 * P.Z) (2 * P.Z) hA hB hlam hlam
      (by
        show (P.Y + P.X) * (B.y + B.x) - (P.Y - P.X) * (B.y - B.x)
          = 2 * P.Z * (A.x * B.y + B.x * A.y)
        rw [← hx, ← hy]
        field_simp
        ring)
      (by
        show 2 * P.Z + P.T * (B.x * B.y * EDWARDS_D2)
          = 2 * P.Z * (1 + EDWARDS_D * A.x * B.x * A.y * B.y)
        rw [← hx, ← hy, EDWARDS_D2_spec]
        field_simp
        linear_combination (-2) * EDWARDS_D * B.x * B.y * P.Z * hsegre)
      (by
        show (P.Y + P.X) * (B.y + B.x) + (P.Y - P.X) * (B.y - B.x)
          = 2 * P.Z * (A.y * B.y + A.x * B.x)
        rw [← hx, ← hy]
        field_simp
        ring)
      (by
        show 2 * P.Z - P.T * (B.x * B.y * EDWARDS_D2)
          = 2 * P.Z * (1 - EDWARDS_D * A.x * B.x * A.y * B.y)
        rw [← hx, ← hy, EDWARDS_D2_spec]
        field_simp
        linear_combination 2 * EDWARDS_D * B.x * B.y * P.Z * hsegre)
  exact ⟨hval, hcx, hcy⟩

/-- `add` realizes the affine group addition. -/
theorem reps_add {P Q : EdwardsPoint} {A B : AffinePoint}
    (hP : Reps P A) (hQ : Reps Q B) : Reps (add P Q) (A + B) := by
  rw [add]
  refine addPN_reps hP Q.Z hQ.1.1 ?_
  rw [toProjectiveNiels_form hQ.1, hQ.2.1, hQ.2.2]

/-- `neg` realizes the affine group negation. -/
theorem reps_neg {P : EdwardsPoint} {A : AffinePoint} (hP : Reps P A) :
    Reps (neg P) (-A) := by
  obtain ⟨⟨hZ, hcurve, hsegre⟩, hx, hy⟩ := hP
  refine ⟨⟨hZ, ?_, ?_⟩, ?_, hy⟩
  · show -(-P.X / P.Z) ^ 2 + (P.Y / P.Z) ^ 2 =
      1 + EDWARDS_D * (-P.X / P.Z) ^ 2 * (P.Y / P.Z) ^ 2
    rw [neg_div]
    linear_combination hcurve
  · show -P.X * P.Y = P.Z * -P.T
    linear_combination -hsegre
  · show -P.X / P.Z = (-A).x
    rw [neg_div, hx, affine_neg_x]

/-- `sub P Q` is literally `add P (neg Q)`. -/
theorem sub_eq_add_neg_pt (P Q : EdwardsPoint) : sub P Q = add P (neg Q) := by
  rw [sub, add, subPN]
  rw [show pnNeg (toProjectiveNiels Q) = toProjectiveNiels (neg Q) from
    pnPoint_ext
      (show Q.Y - Q.X = Q.Y + -Q.X from by ring)
      (show Q.Y + Q.X = Q.Y - -Q.X from by ring)
      rfl
      (show -(Q.T * EDWARDS_D2) = -Q.T * EDWARDS_D2 from by ring)]

theorem reps_sub {P Q : EdwardsPoint} {A B : AffinePoint}
    (hP : Reps P A) (hQ : Reps Q B) : Reps (sub P Q) (A + -B) := by
  rw [sub_eq_add_neg_pt]
  exact reps_add hP (reps_neg hQ)

/-- The projective doubling step realizes affine doubling. -/
theorem projDouble_spec {s : ProjectivePoint} {A : AffinePoint}
    (hZ : s.Z ≠ 0) (hx : s.X / s.Z = A.x) (hy : s.Y / s.Z = A.y) :
    Valid (toExtended (projDouble s)) ∧
      (toExtended (projDouble s)).X / (toExtended (projDouble s)).Z = (A + A).x ∧
      (toExtended (projDouble s)).Y / (toExtended (projDouble s)).Z = (A + A).y := by
  have hA : onCurve A.x A.y := A.hc
  have hcurve : -(s.X / s.Z) ^ 2 + (s.Y / s.Z) ^ 2 =
      1 + EDWARDS_D * (s.X / s.Z) ^ 2 * (s.Y / s.Z) ^ 2 := by
    rw [hx, hy]; exact hA
  have hpoly : -s.X ^ 2 * s.Z ^ 2 + s.Y ^ 2 * s.Z ^ 2 =
      s.Z ^ 4 + EDWARDS_D * s.X ^ 2 * s.Y ^ 2 := by
    have h4 : (s.Z : F) ^ 4 ≠ 0 := pow_ne_zero 4 hZ
    field_simp at hcurve
    linear_combination hcurve
  have hmu : -(s.Z ^ 2) ≠ 0 := neg_ne_zero.mpr (pow_ne_zero 2 hZ)
  obtain ⟨hval, hcx, hcy⟩ :=
    completed_spec (projDouble s) A.x A.y A.x A.y (s.Z ^ 2) (-(s.Z ^ 2))
      hA hA (pow_ne_zero 2 hZ) hmu
      (by
        show (s.X + s.Y) ^ 2 - s.X ^ 2 - s.Y ^ 2
          = s.Z ^ 2 * (A.x * A.y + A.x * A.y)
        rw [← hx, ← hy]
        field_simp
        ring)
      (by
        show -s.X ^ 2 + s.Y ^ 2
          = s.Z ^ 2 * (1 + EDWARDS_D * A.x * A.x * A.y * A.y)
        rw [← hx, ← hy]
        field_simp
        linear_combination s.Z ^ 2 * hpoly)
      (by
        show -s.X ^ 2 - s.Y ^ 2 = -(s.Z ^ 2) * (A.y * A.y + A.x * A.x)
        rw [← hx, ← hy]
        field_simp
        ring)
      (by
        show -s.X ^ 2 + s.Y ^ 2 - 2 * s.Z ^ 2
          = -(s.Z ^ 2) * (1 - EDWARDS_D * A.x * A.x * A.y * A.y)
        rw [← hx, ← hy]
        field_simp
        linear_combination s.Z ^ 2 * hpoly)
  exact ⟨hval, hcx, hcy⟩

/-- `double` realizes affine doubling. -/
theorem reps_double {P : EdwardsPoint} {A : AffinePoint} (hP : Reps P A) :
    Reps (double P) (A + A) := by
  obtain ⟨⟨hZ, hcurve, hsegre⟩, hx, hy⟩ := hP
  obtain ⟨hval, hcx, hcy⟩ := projDouble_spec (s := toProjective P) hZ hx hy
  exact ⟨hval, hcx, hcy⟩

theorem completedToProjective_eq (c : CompletedPoint) :
    completedToProjective c = toProjective (toExtended c) := rfl

theorem nsmul_double_pow (A : AffinePoint) (n : ℕ) :
    (2 ^ n) • (A + A) = (2 ^ (n + 1)) • A := by
  rw [← two_nsmul, smul_smul, pow_succ]

/-- The doubling chain of `mul_by_pow_2`, at the projective level. -/
theorem mulByPow2Aux_spec :
    ∀ (n : ℕ) (s : ProjectivePoint) (A : AffinePoint), s.Z ≠ 0 →
      s.X / s.Z = A.x → s.Y / s.Z = A.y →
      (mulByPow2Aux s n).Z ≠ 0 ∧
      (mulByPow2Aux s n).X / (mulByPow2Aux s n).Z = ((2 ^ n) • A).x ∧
      (mulByPow2Aux s n).Y / (mulByPow2Aux s n).Z = ((2 ^ n) • A).y := by
  intro n
  induction n with
  | zero =>
    intro s A hZ hx hy
    rw [mulByPow2Aux, pow_zero, one_smul]
    exact ⟨hZ, hx, hy⟩
  | succ n ih =>
    intro s A hZ hx hy
    obtain ⟨hval, hcx, hcy⟩ := projDouble_spec (A := A) hZ hx hy
    rw [show mulByPow2Aux s (n + 1) =
      mulByPow2Aux (completedToProjective (projDouble s)) n from rfl,
      completedToProjective_eq]
    obtain ⟨h1, h2, h3⟩ := ih (toProjective (toExtended (projDouble s)))
      (A + A) hval.1 hcx hcy
    refine ⟨h1, ?_, ?_⟩
    · rw [h2, nsmul_double_pow]
    · rw [h3, nsmul_double_pow]

/-- `mul_by_pow_2` realizes multiplication by `2^k` for `k > 0`. -/
theorem reps_mulByPow2 {P : EdwardsPoint} {A : AffinePoint} (hP : Reps P A)
    (k : ℕ) (hk : 0 < k) : Reps (mulByPow2 P k) ((2 ^ k) • A) := by
  obtain ⟨⟨hZ, hcurve, hsegre⟩, hx, hy⟩ := hP
  obtain ⟨h1, h2, h3⟩ := mulByPow2Aux_spec (k - 1) (toProjective P) A
    hZ hx hy
  obtain ⟨hval, hcx, hcy⟩ := projDouble_spec (A := (2 ^ (k - 1)) • A) h1 h2 h3
  have hpow : (2 ^ (k - 1)) • A + (2 ^ (k - 1)) • A = (2 ^ k) • A := by
    rw [← two_nsmul, smul_smul, ← pow_succ', Nat.sub_add_cancel hk]
  rw [mulByPow2]
  rw [hpow] at hcx hcy
  exact ⟨hval, hcx, hcy⟩

/-! ### Scalar multiplication: lookup tables, the variable-base ladder and
the fixed-base comb (edwards.rs 777-794; the `window`/`scalar_mul` backends
are not under `src/` and are modelled from the spec §4.5-4.7) -/

/-- Modelled from the spec (§4.5): the `k`-th multiple `k·P` stored by a
`LookupTable`, built by repeated addition. -/
def nsmulPoint (P : EdwardsPoint) : ℕ → EdwardsPoint
  | 0 => identity
  | k + 1 => add (nsmulPoint P k) P

/-- Modelled from the spec (§4.5): `LookupTable<ProjectiveNielsPoint>::select`:
`t` starts at the Niels identity, each of the 8 slots is conditionally
selected on `|i| = k`, and the result is conditionally negated when `i < 0`. -/
def pnSelect (P : EdwardsPoint) (i : ℤ) : ProjectiveNielsPoint :=
  let m := i.natAbs
  let t := (List.range 8).foldl
    (fun t k => if m = k + 1 then toProjectiveNiels (nsmulPoint P (k + 1)) else t)
    (toProjectiveNiels identity)
  if i < 0 then pnNeg t else t

/-- Modelled from the spec (§4.5): `LookupTable<AffineNielsPoint>::select`. -/
def anSelect (P : EdwardsPoint) (i : ℤ) : AffineNielsPoint :=
  let m := i.natAbs
  let t := (List.range 8).foldl
    (fun t k => if m = k + 1 then toAffineNiels (nsmulPoint P (k + 1)) else t)
    ⟨1, 1, 0⟩
  if i < 0 then anNeg t else t

/-- Modelled from the spec (§4.6): `scalar_mul::variable_base::mul`, the
target of `Mul<&Scalar> for &EdwardsPoint` (edwards.rs 594-603): for `i`
from 63 down to 0, `Q = (16·Q) + table.select(aᵢ)`, starting from the
identity; `aᵢ` are the signed radix-16 digits of the scalar. -/
def varMul (P : EdwardsPoint) (a : List ℤ) : EdwardsPoint :=
  (List.range 64).reverse.foldl
    (fun Q i => toExtended (addPN (mulByPow2 Q 4) (pnSelect P (a.getD i 0))))
    identity

/-- `EdwardsBasepointTable::create` (edwards.rs 819-830): table `j` holds the
lookup table of the point `(16²)^j · B`, each next base obtained by
`mul_by_pow_2(8)`. -/
def tableBases (B : EdwardsPoint) : ℕ → EdwardsPoint
  | 0 => B
  | j + 1 => mulByPow2 (tableBases B j) 8

/-- `EdwardsBasepointTable::basepoint_mul` (edwards.rs 777-794): add the
table entries at the odd digits, multiply by `2⁴`, then add the table
entries at the even digits. -/
def basepointMul (B : EdwardsPoint) (a : List ℤ) : EdwardsPoint :=
  let phase1 := ((List.range 64).filter (fun x => x % 2 = 1)).foldl
    (fun P i => toExtended (addAN P (anSelect (tableBases B (i / 2)) (a.getD i 0))))
    identity
  ((List.range 64).filter (fun x => x % 2 = 0)).foldl
    (fun P i => toExtended (addAN P (anSelect (tableBases B (i / 2)) (a.getD i 0))))
    (mulByPow2 phase1 4)

/-- `nsmulPoint` realizes the natural multiples in the affine group. -/
theorem nsmulPoint_reps {P : EdwardsPoint} {A : AffinePoint} (hPA : Reps P A) :
    ∀ k : ℕ, Reps (nsmulPoint P k) (k • A) := by
  intro k
  induction k with
  | zero =>
    rw [nsmulPoint, zero_smul]
    exact reps_identity
  | succ k ih =>
    rw [nsmulPoint, succ_nsmul]
    exact reps_add ih hPA

theorem pn_identity_form : toProjectiveNiels identity = pnForm 0 1 1 :=
  pnPoint_ext
    (show (1 : F) + 0 = (1 + 0) * 1 from by ring)
    (show (1 : F) - 0 = (1 - 0) * 1 from by ring)
    (show (1 : F) = 1 from rfl)
    (show (0 : F) * EDWARDS_D2 = 0 * 1 * EDWARDS_D2 * 1 from by ring)

theorem an_identity_form : (⟨1, 1, 0⟩ : AffineNielsPoint) = anForm 0 1 :=
  anPoint_ext
    (show (1 : F) = 1 + 0 from by ring)
    (show (1 : F) = 1 - 0 from by ring)
    (show (0 : F) = 0 * 1 * EDWARDS_D2 from by ring)

/-- `pnSelect` returns the `pnForm` data of the signed multiple `i • A`. -/
theorem pnSelect_spec {P : EdwardsPoint} {A : AffinePoint} (hPA : Reps P A)
    (i : ℤ) (hi : i.natAbs ≤ 8) :
    ∃ w : F, w ≠ 0 ∧ pnSelect P i = pnForm (i • A).x (i • A).y w := by
  have hrange : (List.range 8) = [0, 1, 2, 3, 4, 5, 6, 7] := rfl
  have hsel : ∀ m : ℕ, m ≤ 8 → ∃ w : F, w ≠ 0 ∧
      (List.range 8).foldl
        (fun t k => if m = k + 1 then toProjectiveNiels (nsmulPoint P (k + 1)) else t)
        (toProjectiveNiels identity) = pnForm ((m : ℤ) • A).x ((m : ℤ) • A).y w := by
    intro m hm
    have hrep : ∀ k : ℕ, ∃ w : F, w ≠ 0 ∧
        toProjectiveNiels (nsmulPoint P k) = pnForm ((k : ℤ) • A).x ((k : ℤ) • A).y w := by
      intro k
      obtain ⟨hv, hx, hy⟩ := nsmulPoint_reps hPA k
      refine ⟨(nsmulPoint P k).Z, hv.1, ?_⟩
      rw [toProjectiveNiels_form hv, hx, hy, natCast_zsmul]
    interval_cases m
    · exact ⟨1, one_ne_zero, by
        rw [hrange]
        simp only [List.foldl]
        norm_num
        rw [pn_identity_form]
        rfl⟩
    · obtain ⟨w, hw, he⟩ := hrep 1
      refine ⟨w, hw, ?_⟩
      rw [hrange]
      simp only [List.foldl]
      norm_num
      norm_num at he
      exact he
    · obtain ⟨w, hw, he⟩ := hrep 2
      refine ⟨w, hw, ?_⟩
      rw [hrange]
      simp only [List.foldl]
      norm_num
      norm_num at he
      exact he
    · obtain ⟨w, hw, he⟩ := hrep 3
      refine ⟨w, hw, ?_⟩
      rw [hrange]
      simp only [List.foldl]
      norm_num
      norm_num at he
      exact he
    · obtain ⟨w, hw, he⟩ := hrep 4
      refine ⟨w, hw, ?_⟩
      rw [hrange]
      simp only [List.foldl]
      norm_num
      norm_num at he
      exact he
    · obtain ⟨w, hw, he⟩ := hrep 5
      refine ⟨w, hw, ?_⟩
      rw [hrange]
      simp only [List.foldl]
      norm_num
      norm_num at he
      exact he
    · obtain ⟨w, hw, he⟩ := hrep 6
      refine ⟨w, hw, ?_⟩
      rw [hrange]
      simp only [List.foldl]
      norm_num
      norm_num at he
      exact he
    · obtain ⟨w, hw, he⟩ := hrep 7
      refine ⟨w, hw, ?_⟩
      rw [hrange]
      simp only [List.foldl]
      norm_num
      norm_num at he
      exact he
    · obtain ⟨w, hw, he⟩ := hrep 8
      refine ⟨w, hw, ?_⟩
      rw [hrange]
      simp only [List.foldl]
      norm_num
      norm_num at he
      exact he
  obtain ⟨w, hw, he⟩ := hsel i.natAbs hi
  rw [pnSelect]
  by_cases hneg : i < 0
  · refine ⟨w, hw, ?_⟩
    rw [if_pos hneg, he, pnNeg_form,
      show ((i.natAbs : ℤ) • A) = -(i • A) from by
        rw [Int.ofNat_natAbs_of_nonpos (le_of_lt hneg), neg_zsmul],
      affine_neg_x, affine_neg_y, neg_neg]
  · refine ⟨w, hw, ?_⟩
    rw [if_neg hneg, he,
      show ((i.natAbs : ℤ)) = i from Int.natAbs_of_nonneg (not_lt.mp hneg)]

/-- `anSelect` returns the `anForm` data of the signed multiple `i • A`. -/
theorem anSelect_spec {P : EdwardsPoint} {A : AffinePoint} (hPA : Reps P A)
    (i : ℤ) (hi : i.natAbs ≤ 8) :
    anSelect P i = anForm (i • A).x (i • A).y := by
  have hrange : (List.range 8) = [0, 1, 2, 3, 4, 5, 6, 7] := rfl
  have hsel : ∀ m : ℕ, m ≤ 8 →
      (List.range 8).foldl
        (fun t k => if m = k + 1 then toAffineNiels (nsmulPoint P (k + 1)) else t)
        ⟨1, 1, 0⟩ = anForm ((m : ℤ) • A).x ((m : ℤ) • A).y := by
    intro m hm
    have hrep : ∀ k : ℕ,
        toAffineNiels (nsmulPoint P k) = anForm ((k : ℤ) • A).x ((k : ℤ) • A).y := by
      intro k
      obtain ⟨hv, hx, hy⟩ := nsmulPoint_reps hPA k
      rw [toAffineNiels_form, hx, hy, natCast_zsmul]
    interval_cases m
    · rw [hrange]
      simp only [List.foldl]
      norm_num
      rw [an_identity_form]
      rfl
    · have he := hrep 1
      rw [hrange]
      simp only [List.foldl]
      norm_num
      norm_num at he
      exact he
    · have he := hrep 2
      rw [hrange]
      simp only [List.foldl]
      norm_num
      norm_num at he
      exact he
    · have he := hrep 3
      rw [hrange]
      simp only [List.foldl]
      norm_num
      norm_num at he
      exact he
    · have he := hrep 4
      rw [hrange]
      simp only [List.foldl]
      norm_num
      norm_num at he
      exact he
    · have he := hrep 5
      rw [hrange]
      simp only [List.foldl]
      norm_num
      norm_num at he
      exact he
    · have he := hrep 6
      rw [hrange]
      simp only [List.foldl]
      norm_num
      norm_num at he
      exact he
    · have he := hrep 7
      rw [hrange]
      simp only [List.foldl]
      norm_num
      norm_num at he
      exact he
    · have he := hrep 8
      rw [hrange]
      simp only [List.foldl]
      norm_num
      norm_num at he
      exact he
  have he := hsel i.natAbs hi
  rw [anSelect]
  by_cases hneg : i < 0
  · rw [if_pos hneg, he, anNeg_form,
      show ((i.natAbs : ℤ) • A) = -(i • A) from by
        rw [Int.ofNat_natAbs_of_nonpos (le_of_lt hneg), neg_zsmul],
      affine_neg_x, affine_neg_y, neg_neg]
  · rw [if_neg hneg, he,
      show ((i.natAbs : ℤ)) = i from Int.natAbs_of_nonneg (not_lt.mp hneg)]

theorem digit_bound (a : List ℤ) (ha : ∀ dgt ∈ a, dgt.natAbs ≤ 8) (i : ℕ) :
    (a.getD i 0).natAbs ≤ 8 := by
  by_cases h : i < a.length
  · rw [List.getD_eq_getElem a 0 h]
    exact ha _ (List.getElem_mem h)
  · rw [List.getD_eq_default a 0 (le_of_not_lt h)]
    norm_num

/-- `mul_by_pow_2 _ 4` is multiplication by the integer 16. -/
theorem reps_mulByPow2_16 {Q : EdwardsPoint} {B : AffinePoint}
    (h : Reps Q B) : Reps (mulByPow2 Q 4) ((16 : ℤ) • B) := by
  have h2 := reps_mulByPow2 h 4 (by norm_num)
  rwa [show ((2 ^ 4 : ℕ)) • B = (16 : ℤ) • B from by
    rw [← natCast_zsmul]; norm_num] at h2

/-- The variable-base ladder loop body, over an arbitrary index list. -/
theorem varMul_fold {P : EdwardsPoint} {A : AffinePoint} (hPA : Reps P A)
    (a : List ℤ) (ha : ∀ dgt ∈ a, dgt.natAbs ≤ 8) :
    ∀ (l : List ℕ) (Q : EdwardsPoint) (B : AffinePoint), Reps Q B →
      Reps (l.foldr
          (fun i Q => toExtended (addPN (mulByPow2 Q 4) (pnSelect P (a.getD i 0)))) Q)
        (l.foldr (fun i B => (16 : ℤ) • B + (a.getD i 0) • A) B) := by
  intro l
  induction l with
  | nil => intro Q B h; exact h
  | cons i t ih =>
    intro Q B hQB
    rw [List.foldr_cons, List.foldr_cons]
    obtain ⟨w, hw, he⟩ := pnSelect_spec hPA (a.getD i 0) (digit_bound a ha i)
    exact addPN_reps (reps_mulByPow2_16 (ih Q B hQB)) w hw he

/-- The radix-16 value computed by `to_radix_16` digits (spec §6):
`Σ aᵢ·16^i` over the 64 digits. -/
def scalarVal (a : List ℤ) : ℤ :=
  ((List.range 64).map (fun i => a.getD i 0 * 16 ^ i)).sum

/-- Unrolling the Horner recurrence of the ladder. -/
theorem horner_foldr (a : List ℤ) (A : AffinePoint) :
    ∀ (n : ℕ) (B : AffinePoint),
      (List.range n).foldr (fun i B => (16 : ℤ) • B + (a.getD i 0) • A) B =
        (((List.range n).map (fun i => a.getD i 0 * 16 ^ i)).sum) • A +
          ((16 ^ n : ℤ)) • B := by
  intro n
  induction n with
  | zero =>
    intro B
    simp
  | succ n ih =>
    intro B
    rw [List.range_succ, List.foldr_append, List.map_append, List.sum_append,
      List.foldr_cons, List.foldr_nil, List.map_cons, List.map_nil,
      List.sum_cons, List.sum_nil, ih ((16 : ℤ) • B + (a.getD n 0) • A),
      smul_add, smul_smul, smul_smul, add_zero, add_smul]
    rw [show (16 ^ n * 16 : ℤ) = 16 ^ (n + 1) from by ring,
      show (16 ^ n * a.getD n 0 : ℤ) = a.getD n 0 * 16 ^ n from by ring]
    abel

/-- The variable-base ladder computes `scalarVal a` times the point. -/
theorem varMul_reps {P : EdwardsPoint} {A : AffinePoint} (hPA : Reps P A)
    (a : List ℤ) (ha : ∀ dgt ∈ a, dgt.natAbs ≤ 8) :
    Reps (varMul P a) ((scalarVal a) • A) := by
  rw [varMul, List.foldl_reverse]
  have h := varMul_fold hPA a ha (List.range 64) identity 0 reps_identity
  rw [horner_foldr, smul_zero, add_zero] at h
  exact h

/-- The basepoint table bases: table `j` is built from `256^j · B`. -/
theorem tableBases_reps {B : EdwardsPoint} {A : AffinePoint} (hB : Reps B A) :
    ∀ j : ℕ, Reps (tableBases B j) (((256 : ℤ) ^ j) • A) := by
  intro j
  induction j with
  | zero =>
    rw [tableBases, pow_zero, one_smul]
    exact hB
  | succ j ih =>
    rw [tableBases]
    have h := reps_mulByPow2 ih 8 (by norm_num)
    rwa [show ((2 ^ 8 : ℕ)) • (((256 : ℤ) ^ j) • A) = ((256 : ℤ) ^ (j + 1)) • A
      from by
        rw [← natCast_zsmul, smul_smul]
        norm_num [pow_succ']] at h

/-- One comb phase of `basepoint_mul`, over an arbitrary index list. -/
theorem bpm_fold {Bpt : EdwardsPoint} {A0 : AffinePoint} (hB : Reps Bpt A0)
    (a : List ℤ) (ha : ∀ dgt ∈ a, dgt.natAbs ≤ 8) :
    ∀ (l : List ℕ) (Q : EdwardsPoint) (B : AffinePoint), Reps Q B →
      Reps (l.foldl
          (fun P i => toExtended (addAN P (anSelect (tableBases Bpt (i / 2)) (a.getD i 0)))) Q)
        (B + ((l.map (fun i => a.getD i 0 * 256 ^ (i / 2))).sum) • A0) := by
  intro l
  induction l with
  | nil =>
    intro Q B h
    rw [List.foldl_nil, List.map_nil, List.sum_nil, zero_smul, add_zero]
    exact h
  | cons i t ih =>
    intro Q B hQB
    rw [List.foldl_cons, List.map_cons, List.sum_cons]
    have hsel := anSelect_spec (tableBases_reps hB (i / 2)) (a.getD i 0)
      (digit_bound a ha i)
    have hstep : Reps (toExtended (addAN Q
        (anSelect (tableBases Bpt (i / 2)) (a.getD i 0))))
        (B + (a.getD i 0 * 256 ^ (i / 2)) • A0) := by
      have h := addAN_reps hQB hsel
      rwa [smul_smul] at h
    have h := ih _ _ hstep
    rwa [add_assoc, ← add_smul] at h

/-- The odd/even radix-16 comb recombination. -/
theorem odd_even_sum (a : List ℤ) :
    16 * ((((List.range 64).filter (fun x => x % 2 = 1)).map
        (fun i => a.getD i 0 * 256 ^ (i / 2))).sum) +
      ((((List.range 64).filter (fun x => x % 2 = 0)).map
        (fun i => a.getD i 0 * 256 ^ (i / 2))).sum) = scalarVal a := by
  rw [scalarVal,
    show (List.range 64).filter (fun x => x % 2 = 1) = [1, 3, 5, 7, 9, 11, 13, 15, 17, 19, 21, 23, 25, 27, 29, 31, 33, 35, 37, 39, 41, 43, 45, 47, 49, 51, 53, 55, 57, 59, 61, 63] from rfl,
    show (List.range 64).filter (fun x => x % 2 = 0) = [0, 2, 4, 6, 8, 10, 12, 14, 16, 18, 20, 22, 24, 26, 28, 30, 32, 34, 36, 38, 40, 42, 44, 46, 48, 50, 52, 54, 56, 58, 60, 62] from rfl,
    show List.range 64 = [0, 1, 2, 3, 4, 5, 6, 7, 8, 9, 10, 11, 12, 13, 14, 15, 16, 17, 18, 19, 20, 21, 22, 23, 24, 25, 26, 27, 28, 29, 30, 31, 32, 33, 34, 35, 36, 37, 38, 39, 40, 41, 42, 43, 44, 45, 46, 47, 48, 49, 50, 51, 52, 53, 54, 55, 56, 57, 58, 59, 60, 61, 62, 63] from rfl]
  simp only [List.map_cons, List.map_nil, List.sum_cons, List.sum_nil]
  ring

/-- The fixed-base comb computes `scalarVal a` times the point. -/
theorem basepointMul_reps {B : EdwardsPoint} {A0 : AffinePoint}
    (hB : Reps B A0) (a : List ℤ) (ha : ∀ dgt ∈ a, dgt.natAbs ≤ 8) :
    Reps (basepointMul B a) ((scalarVal a) • A0) := by
  rw [basepointMul]
  have h1 := bpm_fold hB a ha ((List.range 64).filter (fun x => x % 2 = 1))
    identity 0 reps_identity
  rw [zero_add] at h1
  have h2 := reps_mulByPow2_16 h1
  have h3 := bpm_fold hB a ha ((List.range 64).filter (fun x => x % 2 = 0)) _ _ h2
  rwa [smul_smul, ← add_smul, odd_even_sum] at h3

/-- Modelled from the spec (§6): the Ed25519 basepoint `B = (x, 4/5)` of the
missing `constants.rs`, in extended coordinates `(x, y, 1, x*y)`. -/
def ED25519_BASEPOINT : EdwardsPoint :=
  ⟨((15112221349535400772501151409588531511454012693041857206046113283949847762202 : ℕ) : F),
   ((46316835694926478169428394003475163141307993866256225615783033603165251855960 : ℕ) : F),
   1,
   ((46827403850823179245072216630277197565144205554125654976674165829533817101731 : ℕ) : F)⟩

theorem basepoint_valid : Valid ED25519_BASEPOINT := by
  refine ⟨by decide, ?_, by decide⟩
  rw [show ED25519_BASEPOINT.Z = 1 from rfl]
  simp only [div_one]
  decide

/-- **C4**: group laws at the public interface, with equality taken as
`ct_eq`: for all valid `P`, `Q`, `R`: `P + identity() = P`;
`P + (-P) = identity()`; `P + P = P.double()`; and addition is associative,
`(P+Q)+R = P+(Q+R)`. -/
theorem claim4_group_laws (P Q R : EdwardsPoint)
    (hP : Valid P) (hQ : Valid Q) (hR : Valid R) :
    ctEq (add P identity) P = true ∧
    ctEq (add P (neg P)) identity = true ∧
    ctEq (add P P) (double P) = true ∧
    ctEq (add (add P Q) R) (add P (add Q R)) = true := by
  have hPA := reps_self hP
  have hQA := reps_self hQ
  have hRA := reps_self hR
  refine ⟨?_, ?_, ?_, ?_⟩
  · exact reps_ctEq (reps_add hPA reps_identity) hPA (add_zero _)
  · exact reps_ctEq (reps_add hPA (reps_neg hPA)) reps_identity
      (add_neg_cancel _)
  · exact reps_ctEq (reps_add hPA hPA) (reps_double hPA) rfl
  · exact reps_ctEq (reps_add (reps_add hPA hQA) hRA)
      (reps_add hPA (reps_add hQA hRA)) (add_assoc _ _ _)

/-- Closed witness for `claim4_group_laws` at the identity point. -/
theorem claim4_witness :
    ctEq (add identity identity) identity = true :=
  (claim4_group_laws identity identity identity identity_valid identity_valid
    identity_valid).1

/-- **C5**: fixed-base and variable-base scalar multiplication agree: for
the Ed25519 basepoint `B` and every vector of signed radix-16 digits (each
in `[-8, 8]`, as produced by `Scalar::to_radix_16`), the three-phase comb
`basepoint_mul` over the table `EdwardsBasepointTable::create(&B)` and the
variable-base ladder `&B * &s` compute the same group element (`ct_eq`). -/
theorem claim5_fixed_vs_variable_base (a : List ℤ)
    (ha : ∀ dgt ∈ a, dgt.natAbs ≤ 8) :
    ctEq (basepointMul ED25519_BASEPOINT a) (varMul ED25519_BASEPOINT a) = true :=
  reps_ctEq (basepointMul_reps (reps_self basepoint_valid) a ha)
    (varMul_reps (reps_self basepoint_valid) a ha) rfl

/-- Closed witness for `claim5_fixed_vs_variable_base` at the zero digit
vector. -/
theorem claim5_witness :
    ctEq (basepointMul ED25519_BASEPOINT []) (varMul ED25519_BASEPOINT []) = true :=
  claim5_fixed_vs_variable_base [] (by simp)

/-- The point returned by a successful decompression is valid. -/
theorem valid_decompress (s : List ℕ) (P : EdwardsPoint)
    (h : decompress s = some P) : Valid P := by
  obtain ⟨hfst, hPeq⟩ := decompress_some_inv s P h
  subst hPeq
  have hv := decompV_ne_zero s
  have hspec := sqrtRatioI_spec (decompU s) (decompV s) hv
  have hsq := hspec.2 hfst
  refine ⟨one_ne_zero, ?_, show decompX s * decompY s =
    1 * (decompX s * decompY s) from by ring⟩
  show -(decompX s / 1) ^ 2 + (decompY s / 1) ^ 2 =
    1 + EDWARDS_D * (decompX s / 1) ^ 2 * (decompY s / 1) ^ 2
  simp only [div_one]
  have hXv : decompX s ^ 2 * decompV s = decompU s := by
    rw [decompX_sq, hsq, div_mul_cancel₀ _ hv]
  simp only [decompU, decompV] at hXv
  linear_combination -hXv

/-- **C3**: validity is an invariant preserved by construction: the identity
point `(0, 1, 1, 0)` is valid (`Z ≠ 0`, the twisted Edwards equation, and
the Segre identity `X·Y = Z·T`), and every operation producing an
`EdwardsPoint` — addition, subtraction, negation, doubling, `mul_by_pow_2`
(with `k > 0`), variable-base scalar multiplication on radix-16 digits, and
successful decompression — maps valid inputs to valid outputs. -/
theorem claim3_validity_by_construction :
    Valid identity ∧
    (∀ P Q : EdwardsPoint, Valid P → Valid Q →
      Valid (add P Q) ∧ Valid (sub P Q)) ∧
    (∀ P : EdwardsPoint, Valid P → Valid (neg P) ∧ Valid (double P)) ∧
    (∀ (P : EdwardsPoint) (k : ℕ), Valid P → 0 < k → Valid (mulByPow2 P k)) ∧
    (∀ (P : EdwardsPoint) (a : List ℤ), Valid P →
      (∀ dgt ∈ a, dgt.natAbs ≤ 8) → Valid (varMul P a)) ∧
    (∀ (s : List ℕ) (P : EdwardsPoint), decompress s = some P → Valid P) := by
  refine ⟨identity_valid, ?_, ?_, ?_, ?_, valid_decompress⟩
  · intro P Q hP hQ
    exact ⟨(reps_add (reps_self hP) (reps_self hQ)).1,
      (reps_sub (reps_self hP) (reps_self hQ)).1⟩
  · intro P hP
    exact ⟨(reps_neg (reps_self hP)).1, (reps_double (reps_self hP)).1⟩
  · intro P k hP hk
    exact (reps_mulByPow2 (reps_self hP) k hk).1
  · intro P a hP ha
    exact (varMul_reps (reps_self hP) a ha).1

/-- Closed witness for `claim3_validity_by_construction`, instantiating its
universally quantified conjuncts at the identity point. -/
theorem claim3_witness : Valid (add identity identity) ∧ Valid (neg identity) :=
  ⟨(claim3_validity_by_construction.2.1 identity identity identity_valid
      identity_valid).1,
   (claim3_validity_by_construction.2.2.1 identity identity_valid).1⟩

end Curve
